import Mathlib

/-! # Edge detector: a shallow embedding of `edge_detector.c`

The C program applies a 3 by 3 Laplacian kernel to PPM (P6) images.  Every
function of the program that the verified properties need is translated below
into a Lean definition that keeps the name it has in the source.

Conventions of the embedding

* `unsigned char` is `Fin 256`; `unsigned long` is a natural number taken
  modulo `2 ^ 64`; `int` is an integer taken modulo `2 ^ 32` into the signed
  range.  Every arithmetic operation of the source is followed by the
  reduction its C type performs.
* A `PPMPixel *` is a function from element index to pixel: the memory the
  pointer points into.  Which indices belong to the allocated object is stated
  in the theorems (`index < w * h`).
* A `for` loop with an upward counter is `for_loop lo hi body`.
* The row-slice threads of `apply_filters` are run to completion one after the
  other, in an order that is a parameter (`apply_filters_in_order`);
  `apply_filters` uses creation order.
* A stream is the list of the bytes not yet read.  The calls of `fscanf`,
  `fgetc`, `ungetc`, `fread` and `fprintf` that the source makes are defined
  from the C standard.
* A `while` loop that need not end takes `fuel`, a bound on its iterations;
  the result is `none` when the fuel is used up.
* Where C leaves the behaviour undefined the result is an explicit `undefined`.
* Times are exact rational numbers; the clock readings of `gettimeofday` are
  parameters.  What `malloc` and `fopen` answer is a parameter (`platform`).
-/

namespace EdgeDetector

/-! ## Machine integers -/

/-- The C type `unsigned char`. -/
abbrev UChar := Fin 256

/-- Conversion of an integer value to `unsigned long`: reduction modulo `2 ^ 64`. -/
def to_ulong (z : Int) : Nat := (z % 2 ^ 64).toNat

/-- Conversion of an integer value to `int`: reduction modulo `2 ^ 32` into
the range `-2 ^ 31 .. 2 ^ 31 - 1`. -/
def to_int (z : Int) : Int := (z + 2 ^ 31) % 2 ^ 32 - 2 ^ 31

/-- Conversion of an integer value to `unsigned char`: reduction modulo `256`. -/
def to_uchar (z : Int) : UChar :=
  ⟨(z % 256).toNat, by
    have h1 : 0 ≤ z % 256 := Int.emod_nonneg z (by decide)
    have h2 : z % 256 < 256 := Int.emod_lt_of_pos z (by decide)
    omega⟩

/-- Addition of two `unsigned long` values. -/
def ulong_add (a b : Nat) : Nat := to_ulong ((a : Int) + (b : Int))

/-- Subtraction of two `unsigned long` values. -/
def ulong_sub (a b : Nat) : Nat := to_ulong ((a : Int) - (b : Int))

/-- Multiplication of two `unsigned long` values. -/
def ulong_mul (a b : Nat) : Nat := to_ulong ((a : Int) * (b : Int))

/-- Addition of two `int` values. -/
def int_add (a b : Int) : Int := to_int (a + b)

/-- Multiplication of two `int` values. -/
def int_mul (a b : Int) : Int := to_int (a * b)

/-- The loop `for (i = lo; i < hi; i++) s = body(i, s);`. -/
def for_loop {σ : Type} (lo hi : Nat) (body : Nat → σ → σ) (s : σ) : σ :=
  (List.range' lo (hi - lo)).foldl (fun acc i => body i acc) s

/-! ## Data model -/

/-- The source's `LAPLACIAN_THREADS`. -/
def LAPLACIAN_THREADS : Nat := 4

/-- The source's `FILTER_WIDTH`. -/
def FILTER_WIDTH : Nat := 3

/-- The source's `FILTER_HEIGHT`. -/
def FILTER_HEIGHT : Nat := 3

/-- The source's `RGB_COMPONENT_COLOR`. -/
def RGB_COMPONENT_COLOR : Int := 255

/-- The source's `PPMPixel`: three `unsigned char` channels. -/
structure PPMPixel where
  r : UChar
  g : UChar
  b : UChar
deriving DecidableEq

/-- What a `PPMPixel *` points into: the pixel stored at each element index. -/
abbrev PixelBuffer := Nat → PPMPixel

/-- The assignment `buffer[index] = px`. -/
def buffer_set (buffer : PixelBuffer) (index : Nat) (px : PPMPixel) : PixelBuffer :=
  fun i => if i = index then px else buffer i

/-- The source's `struct parameter`; the `result` pointer is the buffer that the
thread function takes and returns. -/
structure parameter where
  image : PixelBuffer
  w : Nat
  h : Nat
  start : Nat
  size : Nat

/-! ## `truncate_values` -/

/-- The source's `truncate_values`: the three values after the six `if`s. -/
def truncate_values (red green blue : Int) : Int × Int × Int :=
  let red := if red < 0 then 0 else red
  let green := if green < 0 then 0 else green
  let blue := if blue < 0 then 0 else blue
  let red := if red > 255 then 255 else red
  let green := if green > 255 then 255 else green
  let blue := if blue > 255 then 255 else blue
  (red, green, blue)

/-! ## `compute_laplacian_threadfn` -/

/-- The local array `laplacian` of `compute_laplacian_threadfn`. -/
def laplacian : List (List Int) := [[-1, -1, -1], [-1, 8, -1], [-1, -1, -1]]

/-- The array access `laplacian[i][j]`. -/
def laplacian_at (i j : Nat) : Int := (laplacian.getD i []).getD j 0

/-- The local `x_coordinate`:
`(iteratorImageWidth - FILTER_WIDTH / 2 + iteratorFilterWidth + imageWidth) % imageWidth`,
computed in `unsigned long` and stored in an `int`. -/
def x_coordinate (iteratorImageWidth iteratorFilterWidth imageWidth : Nat) : Int :=
  to_int ((ulong_add (ulong_add (ulong_sub iteratorImageWidth (FILTER_WIDTH / 2))
    iteratorFilterWidth) imageWidth % imageWidth : Nat) : Int)

/-- The local `y_coordinate`:
`(iteratorImageHeight - FILTER_HEIGHT / 2 + iteratorFilterHeight + imageHeight) % imageHeight`,
computed in `unsigned long` and stored in an `int`. -/
def y_coordinate (iteratorImageHeight iteratorFilterHeight imageHeight : Nat) : Int :=
  to_int ((ulong_add (ulong_add (ulong_sub iteratorImageHeight (FILTER_HEIGHT / 2))
    iteratorFilterHeight) imageHeight % imageHeight : Nat) : Int)

/-- The local `index = y_coordinate * imageWidth + x_coordinate`: both `int`s are
converted to `unsigned long`. -/
def sample_index (imageWidth imageHeight iteratorImageHeight iteratorImageWidth
    iteratorFilterHeight iteratorFilterWidth : Nat) : Nat :=
  ulong_add
    (ulong_mul (to_ulong (y_coordinate iteratorImageHeight iteratorFilterHeight imageHeight))
      imageWidth)
    (to_ulong (x_coordinate iteratorImageWidth iteratorFilterWidth imageWidth))

/-- The two filter loops of `compute_laplacian_threadfn` for the pixel in row
`iteratorImageHeight` and column `iteratorImageWidth`: the values of `red`,
`green` and `blue` when the loops end. -/
def accumulate (image : PixelBuffer) (imageWidth imageHeight iteratorImageHeight
    iteratorImageWidth : Nat) : Int × Int × Int :=
  for_loop 0 FILTER_HEIGHT (fun iteratorFilterHeight acc =>
    for_loop 0 FILTER_WIDTH (fun iteratorFilterWidth acc =>
      let index := sample_index imageWidth imageHeight iteratorImageHeight
        iteratorImageWidth iteratorFilterHeight iteratorFilterWidth
      let k := laplacian_at iteratorFilterHeight iteratorFilterWidth
      (int_add acc.1 (int_mul ((image index).r.val : Int) k),
       int_add acc.2.1 (int_mul ((image index).g.val : Int) k),
       int_add acc.2.2 (int_mul ((image index).b.val : Int) k))) acc) (0, 0, 0)

/-- The pixel that `compute_laplacian_threadfn` stores for row
`iteratorImageHeight` and column `iteratorImageWidth`: accumulate, truncate,
convert each `int` to `unsigned char`. -/
def filtered_pixel (image : PixelBuffer) (imageWidth imageHeight iteratorImageHeight
    iteratorImageWidth : Nat) : PPMPixel :=
  let acc := accumulate image imageWidth imageHeight iteratorImageHeight iteratorImageWidth
  let t := truncate_values acc.1 acc.2.1 acc.2.2
  { r := to_uchar t.1, g := to_uchar t.2.1, b := to_uchar t.2.2 }

/-- The local `result_index = iteratorImageHeight * imageWidth + iteratorImageWidth`. -/
def result_index (imageWidth iteratorImageHeight iteratorImageWidth : Nat) : Nat :=
  ulong_add (ulong_mul iteratorImageHeight imageWidth) iteratorImageWidth

/-- The source's `compute_laplacian_threadfn`: the result buffer after the
thread has processed rows `start .. start + size - 1`. -/
def compute_laplacian_threadfn (p : parameter) (result : PixelBuffer) : PixelBuffer :=
  let imageWidth := p.w
  let imageHeight := p.h
  let start := p.start
  let size := p.size
  let end_ := ulong_add start size
  let image := p.image
  for_loop start end_ (fun iteratorImageHeight result =>
    for_loop 0 imageWidth (fun iteratorImageWidth result =>
      buffer_set result (result_index imageWidth iteratorImageHeight iteratorImageWidth)
        (filtered_pixel image imageWidth imageHeight iteratorImageHeight iteratorImageWidth))
      result) result

/-! ## `apply_filters` -/

/-- The `params[i]` that `apply_filters` fills in for thread `i` of `T`. -/
def slice_parameter (T : Nat) (image : PixelBuffer) (w h i : Nat) : parameter :=
  let work := h / T
  { image := image
    w := w
    h := h
    start := ulong_mul i work
    size := if i = T - 1 then ulong_sub h (ulong_mul i work) else work }

/-- The source's `apply_filters` with `T` threads, the threads running to
completion in the order `order`; `result` is the freshly allocated buffer.  The
allocation itself is in `apply_filters_alloc`; the two clock readings, which
only give the duration that is printed, are left out. -/
def apply_filters_in_order (T : Nat) (order : List Nat) (image : PixelBuffer) (w h : Nat)
    (result : PixelBuffer) : PixelBuffer :=
  order.foldl (fun res i => compute_laplacian_threadfn (slice_parameter T image w h i) res) result

/-- The source's `apply_filters` for a worker count `T`, threads in creation order. -/
def apply_filters_with (T : Nat) (image : PixelBuffer) (w h : Nat)
    (result : PixelBuffer) : PixelBuffer :=
  for_loop 0 T (fun i res => compute_laplacian_threadfn (slice_parameter T image w h i) res) result

/-- The source's `apply_filters`: `LAPLACIAN_THREADS` threads. -/
def apply_filters (image : PixelBuffer) (w h : Nat) (result : PixelBuffer) : PixelBuffer :=
  apply_filters_with LAPLACIAN_THREADS image w h result

/-! ## The C library: streams, `fscanf`, `fread`, `fprintf` -/

/-- An open stream: the bytes that have not been read yet. -/
abbrev FILE := List UChar

/-- The value `EOF` of `<stdio.h>`. -/
def EOF : Int := -1

/-- The call `fgetc(file)`: the value returned and the stream afterwards. At end
of file the value is `EOF` and the stream stays at end of file. -/
def fgetc (file : FILE) : Int × FILE :=
  match file with
  | [] => (EOF, [])
  | c :: rest => ((c.val : Int), rest)

/-- The call `ungetc(c, file)`: pushing back `EOF` leaves the stream unchanged. -/
def ungetc (c : Int) (file : FILE) : FILE :=
  if c = EOF then file else to_uchar c :: file

/-- The C locale's `isspace`: space, `\t`, `\n`, `\v`, `\f`, `\r`. -/
def isspace (c : UChar) : Bool := c.val = 32 || (9 ≤ c.val && c.val ≤ 13)

/-- The C locale's `isdigit`. -/
def isdigit (c : UChar) : Bool := 48 ≤ c.val && c.val ≤ 57

/-- What a conversion of `fscanf` leaves in its argument: a value, nothing (the
conversion did not match, the object keeps its indeterminate content), or a
number that the object cannot represent (undefined in C). -/
inductive Scanned (α : Type) where
  | assigned (value : α)
  | unassigned
  | unrepresentable
deriving DecidableEq

/-- A white-space directive of a `fscanf` format (such as the `\n` that ends
each format of `read_image`): reads up to the first byte that is not white
space. -/
def skip_white_space (file : FILE) : FILE := file.dropWhile isspace

/-- The number that a sequence of decimal digits denotes. -/
def digits_value (digits : List UChar) : Nat :=
  digits.foldl (fun n d => 10 * n + (d.val - 48)) 0

/-- The conversion `%s`: skips white space, then takes the bytes up to the next
white space. -/
def scan_s (file : FILE) : Scanned (List UChar) × FILE :=
  let file := skip_white_space file
  let word := file.takeWhile (fun c => !isspace c)
  if word = [] then (Scanned.unassigned, file)
  else (Scanned.assigned word, file.dropWhile (fun c => !isspace c))

/-- The subject sequence of `%lu` and `%d`: white space is skipped, then an
optional sign and the longest run of digits are read.  The result is `none` if
there is no digit, else whether the sign is `-`, and the digits. -/
def scan_integer (file : FILE) : Option (Bool × List UChar) × FILE :=
  let file := skip_white_space file
  let signed : Bool × FILE :=
    match file with
    | [] => (false, [])
    | c :: rest =>
      if c.val = 45 then (true, rest) else if c.val = 43 then (false, rest) else (false, c :: rest)
  let digits := signed.2.takeWhile isdigit
  if digits = [] then (none, signed.2)
  else (some (signed.1, digits), signed.2.dropWhile isdigit)

/-- The conversion `%lu`. -/
def scan_lu (file : FILE) : Scanned Nat × FILE :=
  match scan_integer file with
  | (none, file) => (Scanned.unassigned, file)
  | (some (negative, digits), file) =>
    if digits_value digits < 2 ^ 64 then
      (Scanned.assigned
        (if negative then to_ulong (-(digits_value digits : Int)) else digits_value digits), file)
    else (Scanned.unrepresentable, file)

/-- The conversion `%d`. -/
def scan_d (file : FILE) : Scanned Int × FILE :=
  match scan_integer file with
  | (none, file) => (Scanned.unassigned, file)
  | (some (negative, digits), file) =>
    let value : Int := if negative then -(digits_value digits : Int) else (digits_value digits : Int)
    if -2 ^ 31 ≤ value ∧ value < 2 ^ 31 then (Scanned.assigned value, file)
    else (Scanned.unrepresentable, file)

/-- The call `fscanf(file, "%s\n", format)`: what `format` receives, and the
stream afterwards. -/
def fscanf_s (file : FILE) : Scanned (List UChar) × FILE :=
  match scan_s file with
  | (Scanned.assigned word, file) => (Scanned.assigned word, skip_white_space file)
  | other => other

/-- The call `fscanf(file, "%lu %lu\n", width, height)`: what `*width` and
`*height` receive, and the stream afterwards. -/
def fscanf_lu_lu (file : FILE) : Scanned Nat × Scanned Nat × FILE :=
  match scan_lu file with
  | (Scanned.assigned width, file) =>
    match scan_lu (skip_white_space file) with
    | (Scanned.assigned height, file) =>
      (Scanned.assigned width, Scanned.assigned height, skip_white_space file)
    | (other, file) => (Scanned.assigned width, other, file)
  | (other, file) => (other, Scanned.unassigned, file)

/-- The call `fscanf(file, "%d\n", &rgb_component)`: what `rgb_component`
receives, and the stream afterwards. -/
def fscanf_d (file : FILE) : Scanned Int × FILE :=
  match scan_d file with
  | (Scanned.assigned value, file) => (Scanned.assigned value, skip_white_space file)
  | other => other

/-- Bytes grouped into pixels, three bytes (`r`, `g`, `b`) per pixel; an
incomplete last group is dropped. -/
def pixels_of_bytes : List UChar → List PPMPixel
  | r :: g :: b :: rest => ⟨r, g, b⟩ :: pixels_of_bytes rest
  | _ => []

/-- The bytes of a sequence of pixels in memory order. -/
def bytes_of_pixels : List PPMPixel → List UChar
  | [] => []
  | p :: rest => p.r :: p.g :: p.b :: bytes_of_pixels rest

/-- The call `fread(img, sizeof(PPMPixel), count, file)`: the complete pixels
that are stored; their number is the value that `fread` returns. -/
def fread (count : Nat) (file : FILE) : List PPMPixel :=
  (pixels_of_bytes file).take count

/-- The bytes of a string literal of the source. -/
def ascii (s : String) : List UChar := s.toList.map (fun c => to_uchar (c.toNat : Int))

/-- What `fprintf` writes for `%lu`: the decimal digits of the number. -/
def print_lu (n : Nat) : List UChar := (Nat.toDigits 10 n).map (fun c => to_uchar (c.toNat : Int))

/-- What `fprintf` writes for `%d`. -/
def print_d (z : Int) : List UChar :=
  if z < 0 then (45 : UChar) :: print_lu z.natAbs else print_lu z.toNat

/-! ## `write_image` and `read_image` -/

/-- The bytes that the source's `write_image` writes to the file it has opened:
the three `fprintf` calls and the `fwrite` of `width * height` pixels. -/
def write_image_bytes (image : PixelBuffer) (width height : Nat) : List UChar :=
  ascii "P6\n"
    ++ (print_lu width ++ ascii " " ++ print_lu height ++ ascii "\n")
    ++ (print_d RGB_COMPONENT_COLOR ++ ascii "\n")
    ++ bytes_of_pixels ((List.range (ulong_mul width height)).map image)

/-- The inner loop `while (fgetc(file) != '\n') continue;` of `read_image`, run
for at most `fuel` iterations: the stream when the loop has ended, `none` if it
is still running. -/
def skip_comment_line : Nat → FILE → Option FILE
  | 0, _ => none
  | fuel + 1, file =>
    if (fgetc file).1 ≠ 10 then skip_comment_line fuel (fgetc file).2 else some (fgetc file).2

/-- The loop `while ((c = fgetc(file)) == '#') ...` of `read_image`, each loop
run for at most `fuel` iterations: the last value of `c` and the stream when the
loop has ended, `none` if it is still running. -/
def skip_comments : Nat → FILE → Option (Int × FILE)
  | 0, _ => none
  | fuel + 1, file =>
    if (fgetc file).1 = 35 then
      match skip_comment_line fuel (fgetc file).2 with
      | none => none
      | some file => skip_comments fuel file
    else some ((fgetc file).1, (fgetc file).2)

/-- What a call of `read_image` does. -/
inductive read_result where
  /-- It returns `NULL`; `width` and `height` are what it has stored through its
  pointer arguments (`none`: nothing, the caller's variable is still
  uninitialised). -/
  | null (width height : Option Nat)
  /-- It returns a buffer of `width * height` pixels. -/
  | image (img : List PPMPixel) (width height : Nat)
  /-- Its behaviour is undefined in C: it uses an object that `fscanf` did not
  assign, `fscanf` stores more than the three bytes of `format`, or a number
  does not fit its type. -/
  | undefined
deriving DecidableEq

/-- What `*width` or `*height` holds after `fscanf`. -/
def stored (v : Scanned Nat) : Option Nat :=
  match v with
  | Scanned.assigned n => some n
  | _ => none

/-- The source's `read_image`.  `opened` is the content of the file if `fopen`
succeeds, `can_allocate n` tells whether `malloc(n)` succeeds, `fuel` bounds
the iterations of each comment loop; the result is `none` if a loop is still
running when the fuel is used up. -/
def read_image (fuel : Nat) (opened : Option FILE) (can_allocate : Nat → Bool) :
    Option read_result :=
  match opened with
  | none => some (read_result.null none none)
  | some file =>
    match fscanf_s file with
    | (Scanned.assigned format, file) =>
      if format.length > 2 then some read_result.undefined
      else if format ≠ ascii "P6" then some (read_result.null none none)
      else
        match skip_comments fuel file with
        | none => none
        | some (c, file) =>
          let file := ungetc c file
          match fscanf_lu_lu file with
          | (Scanned.unrepresentable, _, _) => some read_result.undefined
          | (_, Scanned.unrepresentable, _) => some read_result.undefined
          | (width, height, file) =>
            match fscanf_d file with
            | (Scanned.assigned rgb_component, file) =>
              if rgb_component ≠ RGB_COMPONENT_COLOR then
                some (read_result.null (stored width) (stored height))
              else
                match width, height with
                | Scanned.assigned width, Scanned.assigned height =>
                  if can_allocate (ulong_mul (ulong_mul width height) 3) then
                    let img := fread (ulong_mul width height) file
                    if img.length ≠ ulong_mul width height then
                      some (read_result.null (some width) (some height))
                    else some (read_result.image img width height)
                  else some (read_result.null (some width) (some height))
                | _, _ => some read_result.undefined
            | _ => some read_result.undefined
    | _ => some read_result.undefined

/-! ## The process: files, allocation, time -/

/-- The source's `struct file_name_args`. -/
structure file_name_args where
  input_file_name : String
  output_file_name : String

/-- The `struct timeval` of `<sys/time.h>`. -/
structure timeval where
  tv_sec : Int
  tv_usec : Int

/-- What the environment of the process decides. -/
structure platform where
  /-- Whether `fopen(name, "wb")` succeeds. -/
  can_create : String → Bool
  /-- Whether the `malloc(n)` of `read_image` returns a non-null pointer. -/
  can_allocate_image : Nat → Bool
  /-- Whether the `malloc(n)` of `apply_filters` returns a non-null pointer. -/
  can_allocate_result : Nat → Bool
  /-- What memory holds where the program has not written: a freshly allocated
  buffer, and the elements after the end of a buffer. -/
  fresh : PixelBuffer

/-- The state that the threads of the process share. -/
structure process_state where
  /-- The content of each file that `fopen(name, "rb")` can open. -/
  files : String → Option (List UChar)
  /-- The global `total_elapsed_time`, as an exact number. -/
  total_elapsed_time : ℚ

/-- How a piece of the program ends. -/
inductive outcome (α : Type) where
  /-- It returns to its caller. -/
  | returned (value : α)
  /-- It calls `exit(status)`: the whole process terminates. -/
  | exited (status : Nat)
  /-- Its behaviour is undefined in C. -/
  | undefined

/-- The expression
`(end.tv_sec - start.tv_sec) + (end.tv_usec - start.tv_usec) / 1000000.0`,
as an exact number. -/
def elapsed_seconds (start end_ : timeval) : ℚ :=
  ((end_.tv_sec - start.tv_sec : Int) : ℚ) + ((end_.tv_usec - start.tv_usec : Int) : ℚ) / 1000000

/-- The source's `update_total_elapsed_time`: the new value of
`total_elapsed_time`; the mutex makes the update atomic. -/
def update_total_elapsed_time (elapsed_time : ℚ) (total_elapsed_time : ℚ) : ℚ :=
  total_elapsed_time + elapsed_time

/-- The memory that a pointer to the pixels `img` points into. -/
def buffer_of (img : List PPMPixel) (beyond : PixelBuffer) : PixelBuffer :=
  fun i => if i < img.length then img.getD i (beyond i) else beyond i

/-- The source's `apply_filters`, with its allocation: it exits with status 1 if
`malloc` fails, else returns the filtered buffer. -/
def apply_filters_alloc (env : platform) (image : PixelBuffer) (w h : Nat) :
    outcome PixelBuffer :=
  if env.can_allocate_result (ulong_mul (ulong_mul w h) 3) then
    outcome.returned (apply_filters image w h env.fresh)
  else outcome.exited 1

/-- The source's `write_image`: it exits with status 1 if the file cannot be
opened for writing, else the file holds `write_image_bytes`. -/
def write_image (env : platform) (image : PixelBuffer) (filename : String)
    (width height : Nat) (files : String → Option (List UChar)) :
    outcome (String → Option (List UChar)) :=
  if env.can_create filename then
    outcome.returned
      (fun name => if name = filename then some (write_image_bytes image width height)
        else files name)
  else outcome.exited 1

/-- The part of the source's `manage_image_file` after `read_image`: filter,
write, stop the timer, update the total. -/
def filter_and_write (env : platform) (args : file_name_args) (filter_start filter_end : timeval)
    (image : PixelBuffer) (width height : Nat) (st : process_state) : outcome process_state :=
  match apply_filters_alloc env image width height with
  | outcome.returned filtered_image =>
    match write_image env filtered_image args.output_file_name width height st.files with
    | outcome.returned files =>
      outcome.returned
        { files := files
          total_elapsed_time :=
            update_total_elapsed_time (elapsed_seconds filter_start filter_end)
              st.total_elapsed_time }
    | outcome.exited status => outcome.exited status
    | outcome.undefined => outcome.undefined
  | outcome.exited status => outcome.exited status
  | outcome.undefined => outcome.undefined

/-- The source's `manage_image_file`, the readings of its two `gettimeofday`
calls being `filter_start` and `filter_end`.  The result of `read_image` is not
tested: with a null `image`, the filter dereferences it as soon as the image
has a pixel, and with `width` or `height` never assigned the call of
`apply_filters` reads an uninitialised variable. -/
def manage_image_file (fuel : Nat) (env : platform) (args : file_name_args)
    (filter_start filter_end : timeval) (st : process_state) : Option (outcome process_state) :=
  match read_image fuel (st.files args.input_file_name) env.can_allocate_image with
  | none => none
  | some (read_result.image img width height) =>
    some (filter_and_write env args filter_start filter_end (buffer_of img env.fresh)
      width height st)
  | some (read_result.null (some width) (some height)) =>
    if width = 0 ∨ height = 0 then
      some (filter_and_write env args filter_start filter_end env.fresh width height st)
    else some outcome.undefined
  | some (read_result.null _ _) => some outcome.undefined
  | some read_result.undefined => some outcome.undefined

/-- A thread that `main` has created: its arguments and the readings of its
two `gettimeofday` calls. -/
structure image_thread where
  args : file_name_args
  filter_start : timeval
  filter_end : timeval

/-- The threads of `main`, each running `manage_image_file` to completion, in
the order of the list.  A thread that exits ends the process: the threads
after it do not run. -/
def run_image_threads (fuel : Nat) (env : platform) :
    List image_thread → process_state → Option (outcome process_state)
  | [], st => some (outcome.returned st)
  | t :: rest, st =>
    match manage_image_file fuel env t.args t.filter_start t.filter_end st with
    | some (outcome.returned st) => run_image_threads fuel env rest st
    | other => other

/-- The end of the source's `main`, from the joining of the threads on: the
threads run, then `total_elapsed_time` is assigned the time between the two
`gettimeofday` readings `start` and `end_` of `main` and printed.  The value
returned is the number printed (before its formatting with `%.4f`) and the
final state. -/
def main_join_and_report (fuel : Nat) (env : platform) (threads : List image_thread)
    (start end_ : timeval) (st : process_state) : Option (outcome (ℚ × process_state)) :=
  match run_image_threads fuel env threads st with
  | none => none
  | some (outcome.returned st) =>
    let total_elapsed_time := elapsed_seconds start end_
    some (outcome.returned
      (total_elapsed_time, { files := st.files, total_elapsed_time := total_elapsed_time }))
  | some (outcome.exited status) => some (outcome.exited status)
  | some outcome.undefined => some outcome.undefined

/-! ## Definitions used to state the properties -/

/-- The pixel that the filter stores at element index `j` of the result. -/
def filtered_at (image : PixelBuffer) (w h j : Nat) : PPMPixel :=
  filtered_pixel image w h (j / w) (j % w)

/-- Row just past the slice of thread `i` of `T`. -/
def slice_end (T h i : Nat) : Nat := if i = T - 1 then h else (i + 1) * (h / T)

/-- Element index `j` lies in the rows of thread `i` of `T`. -/
def in_slice (T w h i j : Nat) : Prop :=
  i * (h / T) * w ≤ j ∧ j < slice_end T h i * w

instance in_slice_decidable (T w h i j : Nat) : Decidable (in_slice T w h i j) := by
  unfold in_slice; infer_instance

/-- Saturating clamp to `0 .. 255`, as the specification words it. -/
def clamp_0_255 (v : Int) : Int := if v < 0 then 0 else if v > 255 then 255 else v

/-- The Laplacian kernel `K` of the specification's glossary. -/
def spec_kernel : List (List Int) := [[-1, -1, -1], [-1, 8, -1], [-1, -1, -1]]

/-- The entry `K[i][j]`. -/
def spec_kernel_at (i j : Int) : Int := (spec_kernel.getD i.toNat []).getD j.toNat 0

/-- The specification's sample index
`((y + dy + h) mod h) * w + ((x + dx + w) mod w)`. -/
def spec_sample_index (w h x y : Nat) (dx dy : Int) : Nat :=
  ((((y : Int) + dy + (h : Int)) % (h : Int)) * (w : Int)
    + (((x : Int) + dx + (w : Int)) % (w : Int))).toNat

/-- The specification's kernel sum for one channel of pixel `(x, y)`: the sum
over `dy, dx` in `-1, 0, 1` of `K[dy+1][dx+1] * source[sample index].channel`. -/
def spec_kernel_sum (channel : PPMPixel → UChar) (source : PixelBuffer) (w h x y : Nat) : Int :=
  (([-1, 0, 1] : List Int).map (fun dy =>
    (([-1, 0, 1] : List Int).map (fun dx =>
      spec_kernel_at (dy + 1) (dx + 1)
        * (((channel (source (spec_sample_index w h x y dx dy))).val : Nat) : Int))).sum)).sum

/-- The exact integer that the nine multiply-and-add steps compute for the
samples `a0 .. a8` taken in loop order. -/
def kernel_response (a0 a1 a2 a3 a4 a5 a6 a7 a8 : Nat) : Int :=
  8 * (a4 : Int) - (a0 : Int) - (a1 : Int) - (a2 : Int) - (a3 : Int) - (a5 : Int)
    - (a6 : Int) - (a7 : Int) - (a8 : Int)

/-- The exact kernel response of one channel at row `y`, column `x`, over the
nine samples that the code reads. -/
def channel_response (channel : PPMPixel → UChar) (image : PixelBuffer) (w h y x : Nat) : Int :=
  kernel_response
    (channel (image (sample_index w h y x 0 0))).val
    (channel (image (sample_index w h y x 0 1))).val
    (channel (image (sample_index w h y x 0 2))).val
    (channel (image (sample_index w h y x 1 0))).val
    (channel (image (sample_index w h y x 1 1))).val
    (channel (image (sample_index w h y x 1 2))).val
    (channel (image (sample_index w h y x 2 0))).val
    (channel (image (sample_index w h y x 2 1))).val
    (channel (image (sample_index w h y x 2 2))).val

/-! ## Concrete images -/

/-- A buffer whose pixels are all black. -/
def black_image : PixelBuffer := fun _ => ⟨0, 0, 0⟩

/-- An image of width `2 ^ 31 + 1` and height `4`: black except for the white
pixel in row 2, column `2 ^ 31` (element index `2 * (2 ^ 31 + 1) + 2 ^ 31`). -/
def wide_image : PixelBuffer :=
  fun i => if i = 6442450946 then ⟨255, 255, 255⟩ else ⟨0, 0, 0⟩

/-- Memory that holds a one-row black image of width `2 ^ 31 + 1` in elements
`0 .. 2 ^ 31`, and white pixels after it. -/
def wide_black_row : PixelBuffer :=
  fun i => if i < 2147483649 then ⟨0, 0, 0⟩ else ⟨255, 255, 255⟩

/-- Positions `a` and `b` on a cycle of length `n` are equal or next to each
other (with wrap-around). -/
def wrap_adjacent (n a b : Nat) : Prop := a = b ∨ (a + 1) % n = b ∨ (b + 1) % n = a

instance wrap_adjacent_decidable (n a b : Nat) : Decidable (wrap_adjacent n a b) := by
  unfold wrap_adjacent; infer_instance

/-- The 5 by 5 image that is black except for the white pixel in its centre
(row 2, column 2, element index 12). -/
def single_bright_image : PixelBuffer :=
  fun i => if i = 12 then ⟨255, 255, 255⟩ else ⟨0, 0, 0⟩

/-- A buffer whose pixels all are `(10, 20, 30)`; 10 is the byte `\n`. -/
def newline_pixel_image : PixelBuffer := fun _ => ⟨10, 20, 30⟩

/-- A file with the tag `P6`, width 1, height 1, maximum value 255 and the four
bytes 32, 1, 2, 3 after the header. -/
def space_payload_file : FILE := ascii "P6\n1 1\n255\n" ++ [32, 1, 2, 3]

/-- A well-formed file: a 1 by 1 image with the pixel `(1, 2, 3)`. -/
def one_pixel_file : FILE := ascii "P6\n1 1\n255\n" ++ [1, 2, 3]

/-- A state in which `a.ppm` and `b.ppm` hold `one_pixel_file`, no other file
exists and `total_elapsed_time` is 0. -/
def two_inputs_state : process_state :=
  { files := fun name => if name = "a.ppm" ∨ name = "b.ppm" then some one_pixel_file else none
    total_elapsed_time := 0 }

/-- An environment in which every allocation and every file creation succeeds. -/
def generous_platform : platform :=
  { can_create := fun _ => true
    can_allocate_image := fun _ => true
    can_allocate_result := fun _ => true
    fresh := black_image }

/-- The thread for `a.ppm`, running from second 0 to second 1. -/
def thread_a : image_thread :=
  { args := { input_file_name := "a.ppm", output_file_name := "laplacian1.ppm" }
    filter_start := { tv_sec := 0, tv_usec := 0 }
    filter_end := { tv_sec := 1, tv_usec := 0 } }

/-- The thread for `b.ppm`, running from second 0 to second 1. -/
def thread_b : image_thread :=
  { args := { input_file_name := "b.ppm", output_file_name := "laplacian2.ppm" }
    filter_start := { tv_sec := 0, tv_usec := 0 }
    filter_end := { tv_sec := 1, tv_usec := 0 } }

/-- The duration that a thread measures and adds to the total. -/
def measured (t : image_thread) : ℚ := elapsed_seconds t.filter_start t.filter_end

/-! ## The writes of a worker -/

/-- The source's `compute_laplacian_threadfn` with a record of its writes: the
state is the result buffer and the list, in order, of the element indices that
have been assigned (`result[result_index] = ...`). -/
def compute_laplacian_threadfn_traced (p : parameter) (state : PixelBuffer × List Nat) :
    PixelBuffer × List Nat :=
  let imageWidth := p.w
  let imageHeight := p.h
  let start := p.start
  let size := p.size
  let end_ := ulong_add start size
  let image := p.image
  for_loop start end_ (fun iteratorImageHeight state =>
    for_loop 0 imageWidth (fun iteratorImageWidth state =>
      (buffer_set state.1 (result_index imageWidth iteratorImageHeight iteratorImageWidth)
        (filtered_pixel image imageWidth imageHeight iteratorImageHeight iteratorImageWidth),
       state.2 ++ [result_index imageWidth iteratorImageHeight iteratorImageWidth]))
      state) state

/-- The element indices that the worker with the parameters `p` assigns, in
order. -/
def thread_writes (p : parameter) : List Nat :=
  (compute_laplacian_threadfn_traced p (black_image, [])).2

/-- A worker's parameters: rows 1 and 2 of a black 2 by 5 image. -/
def two_rows_parameter : parameter :=
  { image := black_image, w := 2, h := 5, start := 1, size := 2 }

/-! ## The accumulators of one pixel, step by step -/

/-- The body of the inner filter loop of `compute_laplacian_threadfn`: one
multiply-and-add on each of `red`, `green`, `blue`, in `int` arithmetic. -/
def accumulate_step (image : PixelBuffer) (imageWidth imageHeight iteratorImageHeight
    iteratorImageWidth iteratorFilterHeight iteratorFilterWidth : Nat)
    (acc : Int × Int × Int) : Int × Int × Int :=
  let index := sample_index imageWidth imageHeight iteratorImageHeight
    iteratorImageWidth iteratorFilterHeight iteratorFilterWidth
  let k := laplacian_at iteratorFilterHeight iteratorFilterWidth
  (int_add acc.1 (int_mul ((image index).r.val : Int) k),
   int_add acc.2.1 (int_mul ((image index).g.val : Int) k),
   int_add acc.2.2 (int_mul ((image index).b.val : Int) k))

/-- The values of `red`, `green`, `blue` after the first `n` executions of the
body of the inner filter loop (execution `k` has `iteratorFilterHeight = k / 3`
and `iteratorFilterWidth = k % 3`). -/
def accumulate_upto (image : PixelBuffer) (w h y x n : Nat) : Int × Int × Int :=
  for_loop 0 n (fun k acc => accumulate_step image w h y x (k / FILTER_WIDTH) (k % FILTER_WIDTH) acc)
    (0, 0, 0)

/-- The same body computed with exact integers: no reduction to 32 bits. -/
def exact_step (image : PixelBuffer) (w h y x fh fw : Nat) (acc : Int × Int × Int) :
    Int × Int × Int :=
  (acc.1 + (((image (sample_index w h y x fh fw)).r.val : Nat) : Int) * laplacian_at fh fw,
   acc.2.1 + (((image (sample_index w h y x fh fw)).g.val : Nat) : Int) * laplacian_at fh fw,
   acc.2.2 + (((image (sample_index w h y x fh fw)).b.val : Nat) : Int) * laplacian_at fh fw)

/-- The exact sums after the first `n` executions of the body. -/
def exact_upto (image : PixelBuffer) (w h y x n : Nat) : Int × Int × Int :=
  for_loop 0 n (fun k acc => exact_step image w h y x (k / FILTER_WIDTH) (k % FILTER_WIDTH) acc)
    (0, 0, 0)

/-- A file that ends inside a comment line of its header. -/
def unterminated_comment_file : FILE := ascii "P6\n# no newline"

/-! ## The file format, as the specification words it -/

/-- The decimal representation of a number as ASCII bytes: its base 10 digits,
the most significant first; the number 0 is the single digit `0`. -/
def decimal_representation (n : Nat) : List UChar :=
  if n = 0 then [48] else (Nat.digits 10 n).reverse.map (fun d => to_uchar ((48 + d : Nat) : Int))

/-- Channel `k` of a pixel: 0 is red, 1 is green, 2 is blue. -/
def channel_byte (p : PPMPixel) (k : Nat) : UChar :=
  if k = 0 then p.r else if k = 1 then p.g else p.b

/-- The payload of an image of `w * h` pixels: `w * h * 3` bytes, byte
`3 * (y * w + x) + k` being channel `k` of the pixel in row `y`, column `x`. -/
def row_major_payload (image : PixelBuffer) (w h : Nat) : List UChar :=
  (List.range (w * h * 3)).map (fun j => channel_byte (image (j / 3)) (j % 3))

/-- A comment line of a header: `#`, the text of the comment, a newline. -/
def comment_line (text : List UChar) : List UChar := (35 : UChar) :: (text ++ [10])

/-- Comment lines one after the other. -/
def comment_lines : List (List UChar) → List UChar
  | [] => []
  | text :: rest => comment_line text ++ comment_lines rest

/-! ## `main`: the threads it creates -/

/-- The call `strstr(haystack, needle)`: the part of `haystack` from the first
occurrence of `needle` on, `none` (the null pointer) if there is none. -/
def strstr (needle : List Char) : List Char → Option (List Char)
  | [] => if needle.isPrefixOf [] then some [] else none
  | c :: rest => if needle.isPrefixOf (c :: rest) then some (c :: rest) else strstr needle rest

/-- The test `strstr(argv[i], ".ppm") != NULL` of `main`. -/
def passes_extension_check (arg : String) : Bool := (strstr ".ppm".toList arg.toList).isSome

/-- What `sprintf` writes for `%d`. -/
def sprintf_d (z : Int) : List Char :=
  if z < 0 then '-' :: Nat.toDigits 10 z.natAbs else Nat.toDigits 10 z.toNat

/-- The characters that `sprintf(..., "laplacian%d.ppm", n)` writes, the
terminating null character not included. -/
def sprintf_laplacian (n : Int) : List Char :=
  "laplacian".toList ++ sprintf_d n ++ ".ppm".toList

/-- The loop of `main` over `argv[1]`, ..., `argv[argc - 1]`, from the state
`thread_count`, `io_args`: the elements of `io_args` that are filled in when the
loop ends, one for each thread created.  The array `output_file_name` has 20
bytes: the behaviour is undefined if `sprintf` writes more, the null character
included. -/
def create_image_threads :
    List String → Int → List file_name_args → outcome (List file_name_args)
  | [], _, io_args => outcome.returned io_args
  | arg :: rest, thread_count, io_args =>
    if passes_extension_check arg then
      if (sprintf_laplacian (int_add thread_count 1)).length + 1 > 20 then outcome.undefined
      else
        create_image_threads rest (int_add thread_count 1)
          (io_args ++ [{ input_file_name := arg
                         output_file_name :=
                           String.mk (sprintf_laplacian (int_add thread_count 1)) }])
    else create_image_threads rest thread_count io_args

/-- The arguments that pass the extension check, in argument order. -/
def accepted_inputs (args : List String) : List String := args.filter passes_extension_check

/-- The output name `laplacian<i>.ppm`. -/
def laplacian_name (i : Nat) : String := "laplacian" ++ toString i ++ ".ppm"

/-- The inputs `inputs`, in order, with the output names `laplacian<first>.ppm`,
`laplacian<first + 1>.ppm`, ... -/
def numbered_from (first : Nat) : List String → List file_name_args
  | [] => []
  | input :: rest =>
    { input_file_name := input, output_file_name := laplacian_name first }
      :: numbered_from (first + 1) rest

/-! # Theorems -/

theorem for_loop_invariant {σ : Type} (Inv : Nat → σ → Prop) (lo hi : Nat)
    (body : Nat → σ → σ) (s : σ) (hle : lo ≤ hi) (h0 : Inv lo s)
    (hstep : ∀ i t, lo ≤ i → i < hi → Inv i t → Inv (i + 1) (body i t)) :
    Inv hi (for_loop lo hi body s) := by
  have key : ∀ n, lo + n ≤ hi →
      Inv (lo + n) ((List.range' lo n).foldl (fun acc i => body i acc) s) := by
    intro n
    induction n with
    | zero => intro _; simpa using h0
    | succ n ih =>
      intro hn
      rw [List.range'_concat, List.foldl_append]
      simp only [List.foldl_cons, List.foldl_nil, Nat.one_mul]
      have := hstep (lo + n) _ (by omega) (by omega) (ih (by omega))
      simpa [Nat.add_assoc] using this
  have := key (hi - lo) (by omega)
  unfold for_loop
  have e : lo + (hi - lo) = hi := by omega
  rw [e] at this
  exact this

theorem for_loop_empty {σ : Type} (lo hi : Nat) (body : Nat → σ → σ) (s : σ) (h : hi ≤ lo) :
    for_loop lo hi body s = s := by
  unfold for_loop
  have : hi - lo = 0 := by omega
  rw [this]; rfl

theorem ulong_add_eq (a b : Nat) (h : a + b < 2 ^ 64) : ulong_add a b = a + b := by
  unfold ulong_add to_ulong; omega

theorem ulong_mul_eq (a b : Nat) (h : a * b < 2 ^ 64) : ulong_mul a b = a * b := by
  unfold ulong_mul to_ulong
  have : ((a : Int) * (b : Int)) = ((a * b : Nat) : Int) := by push_cast; ring
  rw [this]
  generalize a * b = c at *
  omega

theorem ulong_sub_eq (a b : Nat) (h : b ≤ a) (ha : a < 2 ^ 64) : ulong_sub a b = a - b := by
  unfold ulong_sub to_ulong; omega

theorem result_index_eq (w y x : Nat) (h : y * w + x < 2 ^ 64) :
    result_index w y x = y * w + x := by
  unfold result_index
  rw [ulong_mul_eq _ _ (by omega), ulong_add_eq _ _ h]

theorem row_loop_pointwise (image : PixelBuffer) (w h y : Nat) (res : PixelBuffer)
    (hb : y * w + w ≤ 2 ^ 64) (j : Nat) :
    for_loop 0 w (fun x r => buffer_set r (result_index w y x) (filtered_pixel image w h y x)) res j
      = if y * w ≤ j ∧ j < y * w + w then filtered_at image w h j else res j := by
  have := for_loop_invariant
    (fun x (r : PixelBuffer) => ∀ j, r j = if y * w ≤ j ∧ j < y * w + x then filtered_at image w h j else res j)
    0 w (fun x r => buffer_set r (result_index w y x) (filtered_pixel image w h y x)) res
    (Nat.zero_le _)
    (by intro j; rw [if_neg]; omega)
    (by
      intro x t _ hx ih j
      beta_reduce
      rw [result_index_eq w y x (by omega)]
      unfold buffer_set
      by_cases hj : j = y * w + x
      · subst hj
        have hw : 0 < w := by omega
        have e1 : (y * w + x) / w = y := by
          rw [Nat.add_comm, Nat.add_mul_div_right _ _ hw, Nat.div_eq_of_lt hx]; simp
        have e2 : (y * w + x) % w = x := by
          rw [Nat.add_comm, Nat.add_mul_mod_self_right, Nat.mod_eq_of_lt hx]
        simp [filtered_at, e1, e2]
      · rw [if_neg hj, ih j]
        by_cases c1 : y * w ≤ j ∧ j < y * w + x
        · rw [if_pos c1, if_pos ⟨c1.1, by omega⟩]
        · rw [if_neg c1, if_neg (by omega)])
  exact this j

theorem thread_pointwise (p : parameter) (res : PixelBuffer)
    (h1 : p.start + p.size < 2 ^ 64) (h2 : (p.start + p.size) * p.w ≤ 2 ^ 64) (j : Nat) :
    compute_laplacian_threadfn p res j
      = if p.start * p.w ≤ j ∧ j < (p.start + p.size) * p.w then filtered_at p.image p.w p.h j
        else res j := by
  unfold compute_laplacian_threadfn
  rw [ulong_add_eq _ _ h1]
  have := for_loop_invariant
    (fun y (r : PixelBuffer) => ∀ j, r j = if p.start * p.w ≤ j ∧ j < y * p.w then filtered_at p.image p.w p.h j else res j)
    p.start (p.start + p.size)
    (fun y r => for_loop 0 p.w (fun x r => buffer_set r (result_index p.w y x) (filtered_pixel p.image p.w p.h y x)) r)
    res (Nat.le_add_right _ _)
    (by intro j; rw [if_neg]; omega)
    (by
      intro y t hy1 hy2 ih j
      have hyw : y * p.w + p.w ≤ (p.start + p.size) * p.w := by
        have : (y + 1) * p.w ≤ (p.start + p.size) * p.w := Nat.mul_le_mul_right _ (by omega)
        rw [Nat.add_mul, Nat.one_mul] at this; exact this
      have hsw : p.start * p.w ≤ y * p.w := Nat.mul_le_mul_right _ hy1
      beta_reduce
      rw [row_loop_pointwise p.image p.w p.h y t (by omega) j, ih j, Nat.add_mul, Nat.one_mul]
      by_cases c1 : y * p.w ≤ j ∧ j < y * p.w + p.w
      · rw [if_pos c1, if_pos ⟨by omega, by omega⟩]
      · rw [if_neg c1]
        by_cases c2 : p.start * p.w ≤ j ∧ j < y * p.w
        · rw [if_pos c2, if_pos ⟨c2.1, by omega⟩]
        · rw [if_neg c2, if_neg (by omega)])
  exact this j

/-! ## The row slices of `apply_filters` -/

theorem slice_mul_le (T h i : Nat) (hi : i < T) : i * (h / T) + h / T ≤ h := by
  have h1 : (i + 1) * (h / T) ≤ T * (h / T) := Nat.mul_le_mul_right _ hi
  have h2 : T * (h / T) ≤ h := Nat.mul_div_le h T
  rw [Nat.add_mul, Nat.one_mul] at h1
  generalize h / T = q at *
  omega

theorem slice_start (T : Nat) (image : PixelBuffer) (w h i : Nat) (hi : i < T)
    (hh : h < 2 ^ 64) : (slice_parameter T image w h i).start = i * (h / T) := by
  have := slice_mul_le T h i hi
  show ulong_mul i (h / T) = _
  generalize h / T = q at *
  exact ulong_mul_eq _ _ (by omega)

theorem slice_size (T : Nat) (image : PixelBuffer) (w h i : Nat) (hi : i < T)
    (hh : h < 2 ^ 64) :
    (slice_parameter T image w h i).size
      = if i = T - 1 then h - i * (h / T) else h / T := by
  have := slice_mul_le T h i hi
  show (if i = T - 1 then ulong_sub h (ulong_mul i (h / T)) else h / T) = _
  generalize h / T = q at *
  rw [ulong_mul_eq _ _ (by omega)]
  split
  · exact ulong_sub_eq _ _ (by omega) hh
  · rfl

theorem slice_start_add_size (T : Nat) (image : PixelBuffer) (w h i : Nat) (hi : i < T)
    (hh : h < 2 ^ 64) :
    (slice_parameter T image w h i).start + (slice_parameter T image w h i).size
      = slice_end T h i := by
  have := slice_mul_le T h i hi
  rw [slice_start T image w h i hi hh, slice_size T image w h i hi hh]
  unfold slice_end
  generalize h / T = q at *
  split
  · omega
  · rw [Nat.add_mul, Nat.one_mul]

theorem slice_end_le (T h i : Nat) (hi : i < T) : slice_end T h i ≤ h := by
  have := slice_mul_le T h i hi
  unfold slice_end
  split
  · exact Nat.le_refl _
  · rw [Nat.add_mul, Nat.one_mul]; exact this

theorem row_in_some_slice (T h r : Nat) (hT : 1 ≤ T) (hr : r < h) :
    ∃ i, i < T ∧ i * (h / T) ≤ r ∧ r < slice_end T h i := by
  by_cases c : r < (T - 1) * (h / T)
  · have hwork : 0 < h / T := by
      rcases Nat.eq_zero_or_pos (h / T) with h0 | h0
      · rw [h0] at c; simp at c
      · exact h0
    have hlt : r / (h / T) < T - 1 := (Nat.div_lt_iff_lt_mul hwork).2 c
    refine ⟨r / (h / T), by omega, Nat.div_mul_le_self r (h / T), ?_⟩
    unfold slice_end
    rw [if_neg (by omega)]
    have := Nat.lt_div_mul_add (a := r) hwork
    rw [Nat.add_mul, Nat.one_mul]; exact this
  · refine ⟨T - 1, by omega, ?_, ?_⟩
    · generalize h / T = q at *; omega
    · unfold slice_end
      rw [if_pos rfl]; exact hr

theorem row_slice_unique (T h r i k : Nat) (hi : i < T) (hk : k < T)
    (hi1 : i * (h / T) ≤ r) (hi2 : r < slice_end T h i)
    (hk1 : k * (h / T) ≤ r) (hk2 : r < slice_end T h k) : i = k := by
  by_contra hne
  rcases Nat.lt_or_gt_of_ne hne with c | c
  · have e : slice_end T h i = (i + 1) * (h / T) := by unfold slice_end; rw [if_neg (by omega)]
    have : (i + 1) * (h / T) ≤ k * (h / T) := Nat.mul_le_mul_right _ c
    generalize h / T = q at *
    omega
  · have e : slice_end T h k = (k + 1) * (h / T) := by unfold slice_end; rw [if_neg (by omega)]
    have : (k + 1) * (h / T) ≤ i * (h / T) := Nat.mul_le_mul_right _ c
    generalize h / T = q at *
    omega

theorem slice_thread_pointwise (T : Nat) (image : PixelBuffer) (w h i : Nat)
    (res : PixelBuffer) (hi : i < T) (hh : h < 2 ^ 64) (hwh : w * h < 2 ^ 64) (j : Nat) :
    compute_laplacian_threadfn (slice_parameter T image w h i) res j
      = if in_slice T w h i j then filtered_at image w h j else res j := by
  have hs := slice_start T image w h i hi hh
  have he := slice_start_add_size T image w h i hi hh
  have hle := slice_end_le T h i hi
  have hmul : slice_end T h i * w ≤ h * w := Nat.mul_le_mul_right _ hle
  have hcomm : h * w = w * h := Nat.mul_comm _ _
  have key := thread_pointwise (slice_parameter T image w h i) res
    (by rw [he]; omega) (by rw [he]; show slice_end T h i * w ≤ _; omega) j
  rw [he, hs] at key
  exact key

theorem in_order_pointwise (T : Nat) (image : PixelBuffer) (w h : Nat) (order : List Nat)
    (hord : ∀ i ∈ order, i < T) (hh : h < 2 ^ 64) (hwh : w * h < 2 ^ 64)
    (res : PixelBuffer) (j : Nat) :
    apply_filters_in_order T order image w h res j
      = if ∃ i ∈ order, in_slice T w h i j then filtered_at image w h j else res j := by
  unfold apply_filters_in_order
  induction order generalizing res with
  | nil => simp
  | cons a rest ih =>
    rw [List.foldl_cons, ih (fun i hi => hord i (List.mem_cons_of_mem _ hi)),
      slice_thread_pointwise T image w h a res (hord a (List.mem_cons_self _ _)) hh hwh j]
    by_cases c1 : ∃ i ∈ rest, in_slice T w h i j
    · obtain ⟨i, hi, hin⟩ := c1
      rw [if_pos ⟨i, hi, hin⟩, if_pos ⟨i, List.mem_cons_of_mem _ hi, hin⟩]
    · rw [if_neg c1]
      by_cases c2 : in_slice T w h a j
      · rw [if_pos c2, if_pos ⟨a, List.mem_cons_self _ _, c2⟩]
      · rw [if_neg c2, if_neg]
        rintro ⟨i, hi, hin⟩
        rcases List.mem_cons.1 hi with e | e
        · subst e; exact c2 hin
        · exact c1 ⟨i, e, hin⟩

theorem covered_iff (T w h j : Nat) (hT : 1 ≤ T) :
    (∃ i, i < T ∧ in_slice T w h i j) ↔ j < w * h := by
  rcases Nat.eq_zero_or_pos w with hw | hw
  · subst hw
    simp [in_slice]
  · constructor
    · rintro ⟨i, hi, _, h2⟩
      have hle := slice_end_le T h i hi
      have hmul : slice_end T h i * w ≤ h * w := Nat.mul_le_mul_right _ hle
      have hcomm : h * w = w * h := Nat.mul_comm _ _
      omega
    · intro hj
      have hr : j / w < h := (Nat.div_lt_iff_lt_mul hw).2 (by rw [Nat.mul_comm]; exact hj)
      obtain ⟨i, hi, h1, h2⟩ := row_in_some_slice T h (j / w) hT hr
      exact ⟨i, hi, (Nat.le_div_iff_mul_le hw).1 h1, (Nat.div_lt_iff_lt_mul hw).1 h2⟩

theorem apply_filters_with_eq_in_order (T : Nat) (image : PixelBuffer) (w h : Nat)
    (res : PixelBuffer) :
    apply_filters_with T image w h res
      = apply_filters_in_order T (List.range T) image w h res := by
  unfold apply_filters_with apply_filters_in_order for_loop
  rw [Nat.sub_zero, List.range_eq_range']

/-- Every element of the result that belongs to the image holds the filtered
pixel, every other element is untouched: any worker count, any order that
runs each worker once. -/
theorem in_order_result (T : Nat) (image : PixelBuffer) (w h : Nat) (order : List Nat)
    (hT : 1 ≤ T) (hord : ∀ i, i ∈ order ↔ i < T) (hh : h < 2 ^ 64) (hwh : w * h < 2 ^ 64)
    (res : PixelBuffer) (j : Nat) :
    apply_filters_in_order T order image w h res j
      = if j < w * h then filtered_at image w h j else res j := by
  rw [in_order_pointwise T image w h order (fun i hi => (hord i).1 hi) hh hwh res j]
  have e : (∃ i ∈ order, in_slice T w h i j) ↔ j < w * h := by
    rw [← covered_iff T w h j hT]
    constructor
    · rintro ⟨i, hi, hin⟩; exact ⟨i, (hord i).1 hi, hin⟩
    · rintro ⟨i, hi, hin⟩; exact ⟨i, (hord i).2 hi, hin⟩
  by_cases c : j < w * h
  · rw [if_pos c, if_pos (e.2 c)]
  · rw [if_neg c, if_neg (fun hc => c (e.1 hc))]

theorem apply_filters_with_result (T : Nat) (image : PixelBuffer) (w h : Nat)
    (hT : 1 ≤ T) (hh : h < 2 ^ 64) (hwh : w * h < 2 ^ 64) (res : PixelBuffer) (j : Nat) :
    apply_filters_with T image w h res j
      = if j < w * h then filtered_at image w h j else res j := by
  rw [apply_filters_with_eq_in_order]
  exact in_order_result T image w h (List.range T) hT (fun i => List.mem_range) hh hwh res j

theorem apply_filters_result (image : PixelBuffer) (w h : Nat)
    (hh : h < 2 ^ 64) (hwh : w * h < 2 ^ 64) (res : PixelBuffer) (j : Nat) :
    apply_filters image w h res j
      = if j < w * h then filtered_at image w h j else res j :=
  apply_filters_with_result LAPLACIAN_THREADS image w h (by decide) hh hwh res j

/-! ## What one pixel of the result is -/

theorem for_loop_three {σ : Type} (body : Nat → σ → σ) (s : σ) :
    for_loop 0 3 body s = body 2 (body 1 (body 0 s)) := rfl

theorem to_int_eq (z : Int) (h1 : -2 ^ 31 ≤ z) (h2 : z < 2 ^ 31) : to_int z = z := by
  unfold to_int; omega

theorem to_ulong_eq (n : Nat) (h : n < 2 ^ 64) : to_ulong (n : Int) = n := by
  unfold to_ulong; omega

theorem wrapped_arg_eq (x fw w : Nat) (hx : x < w) (hw : w ≤ 2 ^ 31) (hfw : fw < 3) :
    ulong_add (ulong_add (ulong_sub x (FILTER_WIDTH / 2)) fw) w = x + fw + w - 1 := by
  have e : FILTER_WIDTH / 2 = 1 := by decide
  rw [e]
  unfold ulong_add ulong_sub to_ulong
  omega

theorem x_coordinate_eq (x fw w : Nat) (hx : x < w) (hw : w ≤ 2 ^ 31) (hfw : fw < 3) :
    x_coordinate x fw w = (((x + fw + w - 1) % w : Nat) : Int) := by
  unfold x_coordinate
  rw [wrapped_arg_eq x fw w hx hw hfw]
  have hlt : (x + fw + w - 1) % w < w := Nat.mod_lt _ (by omega)
  generalize (x + fw + w - 1) % w = n at *
  exact to_int_eq _ (by omega) (by omega)

theorem y_coordinate_eq (y fh h : Nat) (hy : y < h) (hh : h ≤ 2 ^ 31) (hfh : fh < 3) :
    y_coordinate y fh h = (((y + fh + h - 1) % h : Nat) : Int) := by
  unfold y_coordinate
  have e : FILTER_HEIGHT / 2 = FILTER_WIDTH / 2 := rfl
  rw [e, wrapped_arg_eq y fh h hy hh hfh]
  have hlt : (y + fh + h - 1) % h < h := Nat.mod_lt _ (by omega)
  generalize (y + fh + h - 1) % h = n at *
  exact to_int_eq _ (by omega) (by omega)

theorem sample_index_eq (w h y x fh fw : Nat) (hx : x < w) (hw : w ≤ 2 ^ 31)
    (hy : y < h) (hh : h ≤ 2 ^ 31) (hfh : fh < 3) (hfw : fw < 3) :
    sample_index w h y x fh fw = (y + fh + h - 1) % h * w + (x + fw + w - 1) % w := by
  unfold sample_index
  rw [x_coordinate_eq x fw w hx hw hfw, y_coordinate_eq y fh h hy hh hfh]
  have hxl : (x + fw + w - 1) % w < w := Nat.mod_lt _ (by omega)
  have hyl : (y + fh + h - 1) % h < h := Nat.mod_lt _ (by omega)
  generalize (x + fw + w - 1) % w = a at *
  generalize (y + fh + h - 1) % h = b at *
  have hbw : b * w + a < h * w := by
    have : (b + 1) * w ≤ h * w := Nat.mul_le_mul_right _ hyl
    rw [Nat.add_mul, Nat.one_mul] at this
    omega
  have hhw : h * w ≤ 2 ^ 31 * 2 ^ 31 := Nat.mul_le_mul hh hw
  have h62 : (2 : Nat) ^ 31 * 2 ^ 31 = 2 ^ 62 := by norm_num
  rw [to_ulong_eq a (by omega), to_ulong_eq b (by omega), ulong_mul_eq _ _ (by omega),
    ulong_add_eq _ _ (by omega)]

theorem sample_index_lt (w h y x fh fw : Nat) (hx : x < w) (hw : w ≤ 2 ^ 31)
    (hy : y < h) (hh : h ≤ 2 ^ 31) (hfh : fh < 3) (hfw : fw < 3) :
    sample_index w h y x fh fw < w * h := by
  rw [sample_index_eq w h y x fh fw hx hw hy hh hfh hfw]
  have hxl : (x + fw + w - 1) % w < w := Nat.mod_lt _ (by omega)
  have hyl : (y + fh + h - 1) % h < h := Nat.mod_lt _ (by omega)
  generalize (x + fw + w - 1) % w = a at *
  generalize (y + fh + h - 1) % h = b at *
  have : (b + 1) * w ≤ h * w := Nat.mul_le_mul_right _ hyl
  rw [Nat.add_mul, Nat.one_mul] at this
  have hcomm : h * w = w * h := Nat.mul_comm _ _
  omega

theorem spec_sample_index_eq (w h x y fh fw : Nat) (hw : 0 < w) (hh : 0 < h) :
    spec_sample_index w h x y ((fw : Int) - 1) ((fh : Int) - 1)
      = (y + fh + h - 1) % h * w + (x + fw + w - 1) % w := by
  unfold spec_sample_index
  have e1 : (y : Int) + ((fh : Int) - 1) + (h : Int) = ((y + fh + h - 1 : Nat) : Int) := by omega
  have e2 : (x : Int) + ((fw : Int) - 1) + (w : Int) = ((x + fw + w - 1 : Nat) : Int) := by omega
  rw [e1, e2, ← Int.ofNat_emod, ← Int.ofNat_emod, ← Int.ofNat_mul, ← Int.ofNat_add]
  exact Int.toNat_ofNat _

theorem int_chain (a0 a1 a2 a3 a4 a5 a6 a7 a8 : Nat)
    (h0 : a0 < 256) (h1 : a1 < 256) (h2 : a2 < 256) (h3 : a3 < 256) (h4 : a4 < 256)
    (h5 : a5 < 256) (h6 : a6 < 256) (h7 : a7 < 256) (h8 : a8 < 256) :
    int_add (int_add (int_add (int_add (int_add (int_add (int_add (int_add (int_add 0
      (int_mul (a0 : Int) (-1))) (int_mul (a1 : Int) (-1))) (int_mul (a2 : Int) (-1)))
      (int_mul (a3 : Int) (-1))) (int_mul (a4 : Int) 8)) (int_mul (a5 : Int) (-1)))
      (int_mul (a6 : Int) (-1))) (int_mul (a7 : Int) (-1))) (int_mul (a8 : Int) (-1))
      = kernel_response a0 a1 a2 a3 a4 a5 a6 a7 a8 := by
  unfold kernel_response int_add int_mul to_int
  omega

theorem accumulate_eq (image : PixelBuffer) (w h y x : Nat) :
    accumulate image w h y x
      = (channel_response PPMPixel.r image w h y x,
         channel_response PPMPixel.g image w h y x,
         channel_response PPMPixel.b image w h y x) := by
  unfold accumulate
  rw [show FILTER_HEIGHT = 3 from rfl, show FILTER_WIDTH = 3 from rfl]
  simp only [for_loop_three]
  simp only [show laplacian_at 0 0 = -1 from rfl, show laplacian_at 0 1 = -1 from rfl,
    show laplacian_at 0 2 = -1 from rfl, show laplacian_at 1 0 = -1 from rfl,
    show laplacian_at 1 1 = 8 from rfl, show laplacian_at 1 2 = -1 from rfl,
    show laplacian_at 2 0 = -1 from rfl, show laplacian_at 2 1 = -1 from rfl,
    show laplacian_at 2 2 = -1 from rfl]
  unfold channel_response
  refine Prod.ext ?_ (Prod.ext ?_ ?_)
  · exact int_chain _ _ _ _ _ _ _ _ _ (Fin.isLt _) (Fin.isLt _) (Fin.isLt _) (Fin.isLt _)
      (Fin.isLt _) (Fin.isLt _) (Fin.isLt _) (Fin.isLt _) (Fin.isLt _)
  · exact int_chain _ _ _ _ _ _ _ _ _ (Fin.isLt _) (Fin.isLt _) (Fin.isLt _) (Fin.isLt _)
      (Fin.isLt _) (Fin.isLt _) (Fin.isLt _) (Fin.isLt _) (Fin.isLt _)
  · exact int_chain _ _ _ _ _ _ _ _ _ (Fin.isLt _) (Fin.isLt _) (Fin.isLt _) (Fin.isLt _)
      (Fin.isLt _) (Fin.isLt _) (Fin.isLt _) (Fin.isLt _) (Fin.isLt _)

theorem truncate_values_eq (red green blue : Int) :
    truncate_values red green blue = (clamp_0_255 red, clamp_0_255 green, clamp_0_255 blue) := by
  unfold truncate_values clamp_0_255
  refine Prod.ext ?_ (Prod.ext ?_ ?_) <;> simp only <;> split <;> split <;> omega

theorem clamp_0_255_range (v : Int) : 0 ≤ clamp_0_255 v ∧ clamp_0_255 v ≤ 255 := by
  unfold clamp_0_255
  split
  · omega
  · split <;> omega

theorem to_uchar_val (v : Int) (h0 : 0 ≤ v) (h1 : v ≤ 255) :
    (((to_uchar v).val : Nat) : Int) = v := by
  show (((v % 256).toNat : Nat) : Int) = v
  omega

theorem filtered_pixel_channels (image : PixelBuffer) (w h y x : Nat) :
    (((filtered_pixel image w h y x).r.val : Nat) : Int)
        = clamp_0_255 (channel_response PPMPixel.r image w h y x)
    ∧ (((filtered_pixel image w h y x).g.val : Nat) : Int)
        = clamp_0_255 (channel_response PPMPixel.g image w h y x)
    ∧ (((filtered_pixel image w h y x).b.val : Nat) : Int)
        = clamp_0_255 (channel_response PPMPixel.b image w h y x) := by
  unfold filtered_pixel
  simp only [accumulate_eq, truncate_values_eq]
  exact ⟨to_uchar_val _ (clamp_0_255_range _).1 (clamp_0_255_range _).2,
    to_uchar_val _ (clamp_0_255_range _).1 (clamp_0_255_range _).2,
    to_uchar_val _ (clamp_0_255_range _).1 (clamp_0_255_range _).2⟩

theorem spec_sample_index_eq_code (w h x y fh fw : Nat) (dx dy : Int)
    (hdx : dx = (fw : Int) - 1) (hdy : dy = (fh : Int) - 1)
    (hx : x < w) (hw : w ≤ 2 ^ 31) (hy : y < h) (hh : h ≤ 2 ^ 31)
    (hfh : fh < 3) (hfw : fw < 3) :
    spec_sample_index w h x y dx dy = sample_index w h y x fh fw := by
  rw [hdx, hdy, spec_sample_index_eq w h x y fh fw (by omega) (by omega),
    sample_index_eq w h y x fh fw hx hw hy hh hfh hfw]

theorem spec_kernel_sum_eq (channel : PPMPixel → UChar) (image : PixelBuffer) (w h x y : Nat)
    (hx : x < w) (hw : w ≤ 2 ^ 31) (hy : y < h) (hh : h ≤ 2 ^ 31) :
    spec_kernel_sum channel image w h x y = channel_response channel image w h y x := by
  unfold spec_kernel_sum channel_response kernel_response
  simp only [List.map_cons, List.map_nil, List.sum_cons, List.sum_nil]
  rw [spec_sample_index_eq_code w h x y 0 0 (-1) (-1) (by norm_num) (by norm_num) hx hw hy hh
      (by decide) (by decide),
    spec_sample_index_eq_code w h x y 0 1 0 (-1) (by norm_num) (by norm_num) hx hw hy hh
      (by decide) (by decide),
    spec_sample_index_eq_code w h x y 0 2 1 (-1) (by norm_num) (by norm_num) hx hw hy hh
      (by decide) (by decide),
    spec_sample_index_eq_code w h x y 1 0 (-1) 0 (by norm_num) (by norm_num) hx hw hy hh
      (by decide) (by decide),
    spec_sample_index_eq_code w h x y 1 1 0 0 (by norm_num) (by norm_num) hx hw hy hh
      (by decide) (by decide),
    spec_sample_index_eq_code w h x y 1 2 1 0 (by norm_num) (by norm_num) hx hw hy hh
      (by decide) (by decide),
    spec_sample_index_eq_code w h x y 2 0 (-1) 1 (by norm_num) (by norm_num) hx hw hy hh
      (by decide) (by decide),
    spec_sample_index_eq_code w h x y 2 1 0 1 (by norm_num) (by norm_num) hx hw hy hh
      (by decide) (by decide),
    spec_sample_index_eq_code w h x y 2 2 1 1 (by norm_num) (by norm_num) hx hw hy hh
      (by decide) (by decide)]
  have k00 : spec_kernel_at (-1 + 1) (-1 + 1) = -1 := by decide
  have k01 : spec_kernel_at (-1 + 1) (0 + 1) = -1 := by decide
  have k02 : spec_kernel_at (-1 + 1) (1 + 1) = -1 := by decide
  have k10 : spec_kernel_at (0 + 1) (-1 + 1) = -1 := by decide
  have k11 : spec_kernel_at (0 + 1) (0 + 1) = 8 := by decide
  have k12 : spec_kernel_at (0 + 1) (1 + 1) = -1 := by decide
  have k20 : spec_kernel_at (1 + 1) (-1 + 1) = -1 := by decide
  have k21 : spec_kernel_at (1 + 1) (0 + 1) = -1 := by decide
  have k22 : spec_kernel_at (1 + 1) (1 + 1) = -1 := by decide
  rw [k00, k01, k02, k10, k11, k12, k20, k21, k22]
  ring

/-! ## Claims about the convolution -/

theorem pixel_eq_of_channels (p : PPMPixel) (r g b : Int)
    (hr : ((p.r.val : Nat) : Int) = r) (hg : ((p.g.val : Nat) : Int) = g)
    (hb : ((p.b.val : Nat) : Int) = b) (q : PPMPixel)
    (qr : ((q.r.val : Nat) : Int) = r) (qg : ((q.g.val : Nat) : Int) = g)
    (qb : ((q.b.val : Nat) : Int) = b) : p = q := by
  cases p with
  | mk pr pg pb =>
    cases q with
    | mk q1 q2 q3 =>
      simp only at hr hg hb qr qg qb
      have e1 : pr = q1 := Fin.ext (by omega)
      have e2 : pg = q2 := Fin.ext (by omega)
      have e3 : pb = q3 := Fin.ext (by omega)
      rw [e1, e2, e3]

/-- Where no wrapped coordinate is changed by its conversion to `int`, the
code computes the clamped kernel sum: for every image of width `1 ≤ w ≤ 2 ^ 31`
and height `1 ≤ h ≤ 2 ^ 31` and every pixel `(x, y)` with `x < w` and `y < h`,
each channel of the result of `apply_filters` at index `y * w + x` equals
`clamp_0_255` of the sum over `dy, dx` in `-1, 0, 1` of
`K[dy+1][dx+1] * source[((y+dy+h) mod h) * w + ((x+dx+w) mod w)].channel`. -/
theorem apply_filters_pixel_is_clamped_kernel_sum (image result : PixelBuffer) (w h x y : Nat)
    (hw : w ≤ 2 ^ 31) (hh : h ≤ 2 ^ 31) (hx : x < w) (hy : y < h) :
    (((apply_filters image w h result (y * w + x)).r.val : Nat) : Int)
        = clamp_0_255 (spec_kernel_sum PPMPixel.r image w h x y)
    ∧ (((apply_filters image w h result (y * w + x)).g.val : Nat) : Int)
        = clamp_0_255 (spec_kernel_sum PPMPixel.g image w h x y)
    ∧ (((apply_filters image w h result (y * w + x)).b.val : Nat) : Int)
        = clamp_0_255 (spec_kernel_sum PPMPixel.b image w h x y) := by
  have hwh : w * h ≤ 2 ^ 31 * 2 ^ 31 := Nat.mul_le_mul hw hh
  have h62 : (2 : Nat) ^ 31 * 2 ^ 31 = 2 ^ 62 := by norm_num
  have hlt : y * w + x < w * h := by
    have : (y + 1) * w ≤ h * w := Nat.mul_le_mul_right _ hy
    rw [Nat.add_mul, Nat.one_mul] at this
    have hcomm : h * w = w * h := Nat.mul_comm _ _
    omega
  have e1 : (y * w + x) / w = y := by
    rw [Nat.add_comm, Nat.add_mul_div_right _ _ (by omega), Nat.div_eq_of_lt hx]; simp
  have e2 : (y * w + x) % w = x := by
    rw [Nat.add_comm, Nat.add_mul_mod_self_right, Nat.mod_eq_of_lt hx]
  rw [apply_filters_result image w h (by omega) (by omega) result (y * w + x), if_pos hlt]
  unfold filtered_at
  rw [e1, e2, spec_kernel_sum_eq _ image w h x y hx hw hy hh,
    spec_kernel_sum_eq _ image w h x y hx hw hy hh,
    spec_kernel_sum_eq _ image w h x y hx hw hy hh]
  exact filtered_pixel_channels image w h y x

/-- The clamped kernel sum on the 3 by 2 black image, pixel `(2, 1)`. -/
theorem apply_filters_pixel_is_clamped_kernel_sum_witness :
    3 ≤ 2 ^ 31 ∧ 2 ≤ 2 ^ 31 ∧ 2 < 3 ∧ 1 < 2
    ∧ (((apply_filters black_image 3 2 black_image (1 * 3 + 2)).r.val : Nat) : Int)
        = clamp_0_255 (spec_kernel_sum PPMPixel.r black_image 3 2 2 1)
    ∧ (((apply_filters black_image 3 2 black_image (1 * 3 + 2)).g.val : Nat) : Int)
        = clamp_0_255 (spec_kernel_sum PPMPixel.g black_image 3 2 2 1)
    ∧ (((apply_filters black_image 3 2 black_image (1 * 3 + 2)).b.val : Nat) : Int)
        = clamp_0_255 (spec_kernel_sum PPMPixel.b black_image 3 2 2 1) :=
  ⟨by decide, by decide, by decide, by decide,
    apply_filters_pixel_is_clamped_kernel_sum black_image black_image 3 2 2 1
      (by decide) (by decide) (by decide) (by decide)⟩

set_option maxRecDepth 100000 in
/-- C1, a defect of the code: the wrapped column `(x + dx + w) mod w` is
computed in `unsigned long` and then stored in the `int x_coordinate`, which
turns the column `2 ^ 31` into `-2 ^ 31`.  On the image of width `2 ^ 31 + 1`
and height `4` that is black except for the white pixel `(x, y) = (2 ^ 31, 2)`,
the nine samples that the code reads for that pixel lie inside the buffer, the
code stores 0 in the red channel of the result at index `y * w + x`, and the
clamped kernel sum that the result must hold there is 255. -/
theorem apply_filters_wide_image_counterexample :
    1 ≤ 2147483649 ∧ 1 ≤ 4 ∧ 2147483648 < 2147483649 ∧ 2 < 4
    ∧ (∀ fh < 3, ∀ fw < 3, sample_index 2147483649 4 2 2147483648 fh fw < 2147483649 * 4)
    ∧ (((apply_filters wide_image 2147483649 4 black_image
          (2 * 2147483649 + 2147483648)).r.val : Nat) : Int) = 0
    ∧ clamp_0_255 (spec_kernel_sum PPMPixel.r wide_image 2147483649 4 2147483648 2) = 255 := by
  refine ⟨by decide, by decide, by decide, by decide, by decide, ?_, by decide⟩
  rw [apply_filters_result wide_image 2147483649 4 (by norm_num) (by norm_num) black_image,
    if_pos (by norm_num)]
  decide

/-- C2: for every height `h` (an `unsigned long`) and every worker count
`T ≥ 1`, the slices `[start_i, start_i + size_i)` that `apply_filters` computes
partition `[0, h)`: every row below `h` lies in exactly one slice, no slice
holds a row `≥ h` (nor wraps around), the first slice starts at row 0, each
slice ends where the next one starts and the last one ends at `h`. -/
theorem slices_partition_rows (T : Nat) (image : PixelBuffer) (w h : Nat)
    (hT : 1 ≤ T) (hh : h < 2 ^ 64) :
    (∀ r, r < h → ∃! i, i < T
        ∧ (slice_parameter T image w h i).start ≤ r
        ∧ r < (slice_parameter T image w h i).start + (slice_parameter T image w h i).size)
    ∧ (∀ i, i < T →
        (slice_parameter T image w h i).start + (slice_parameter T image w h i).size ≤ h)
    ∧ (slice_parameter T image w h 0).start = 0
    ∧ (∀ i, i + 1 < T →
        (slice_parameter T image w h i).start + (slice_parameter T image w h i).size
          = (slice_parameter T image w h (i + 1)).start)
    ∧ (slice_parameter T image w h (T - 1)).start + (slice_parameter T image w h (T - 1)).size
        = h := by
  refine ⟨?_, ?_, ?_, ?_, ?_⟩
  · intro r hr
    obtain ⟨i, hi, h1, h2⟩ := row_in_some_slice T h r hT hr
    refine ⟨i, ⟨hi, ?_, ?_⟩, ?_⟩
    · rw [slice_start T image w h i hi hh]; exact h1
    · rw [slice_start_add_size T image w h i hi hh]; exact h2
    · rintro k ⟨hk, k1, k2⟩
      rw [slice_start T image w h k hk hh] at k1
      rw [slice_start_add_size T image w h k hk hh] at k2
      exact row_slice_unique T h r k i hk hi k1 k2 h1 h2
  · intro i hi
    rw [slice_start_add_size T image w h i hi hh]
    exact slice_end_le T h i hi
  · rw [slice_start T image w h 0 (by omega) hh]; simp
  · intro i hi
    rw [slice_start_add_size T image w h i (by omega) hh,
      slice_start T image w h (i + 1) hi hh]
    unfold slice_end
    rw [if_neg (by omega)]
  · rw [slice_start_add_size T image w h (T - 1) (by omega) hh]
    unfold slice_end
    rw [if_pos rfl]

/-- Witness for C2: four workers and a height of three rows (`h < T`). -/
theorem slices_partition_rows_witness :
    1 ≤ 4 ∧ 3 < 2 ^ 64
    ∧ (∀ r, r < 3 → ∃! i, i < 4
        ∧ (slice_parameter 4 black_image 5 3 i).start ≤ r
        ∧ r < (slice_parameter 4 black_image 5 3 i).start
              + (slice_parameter 4 black_image 5 3 i).size)
    ∧ (∀ i, i < 4 →
        (slice_parameter 4 black_image 5 3 i).start
          + (slice_parameter 4 black_image 5 3 i).size ≤ 3)
    ∧ (slice_parameter 4 black_image 5 3 0).start = 0
    ∧ (∀ i, i + 1 < 4 →
        (slice_parameter 4 black_image 5 3 i).start + (slice_parameter 4 black_image 5 3 i).size
          = (slice_parameter 4 black_image 5 3 (i + 1)).start)
    ∧ (slice_parameter 4 black_image 5 3 (4 - 1)).start
          + (slice_parameter 4 black_image 5 3 (4 - 1)).size = 3 :=
  ⟨by decide, by decide, slices_partition_rows 4 black_image 5 3 (by decide) (by decide)⟩

/-- C3: for every triple of signed integers, `truncate_values` replaces each
value `v` by 0 if `v < 0`, by 255 if `v > 255` and leaves it unchanged
otherwise; each of the three results lies in `0 .. 255`, and converting it to
`unsigned char` gives back the same number, so that every channel that
`compute_laplacian_threadfn` stores in the result image is the truncated value
itself. -/
theorem truncate_values_saturates (red green blue : Int) :
    truncate_values red green blue
        = (if red < 0 then 0 else if red > 255 then 255 else red,
           if green < 0 then 0 else if green > 255 then 255 else green,
           if blue < 0 then 0 else if blue > 255 then 255 else blue)
    ∧ (0 ≤ (truncate_values red green blue).1 ∧ (truncate_values red green blue).1 ≤ 255)
    ∧ (0 ≤ (truncate_values red green blue).2.1 ∧ (truncate_values red green blue).2.1 ≤ 255)
    ∧ (0 ≤ (truncate_values red green blue).2.2 ∧ (truncate_values red green blue).2.2 ≤ 255)
    ∧ (((to_uchar (truncate_values red green blue).1).val : Nat) : Int)
        = (truncate_values red green blue).1
    ∧ (((to_uchar (truncate_values red green blue).2.1).val : Nat) : Int)
        = (truncate_values red green blue).2.1
    ∧ (((to_uchar (truncate_values red green blue).2.2).val : Nat) : Int)
        = (truncate_values red green blue).2.2
    ∧ ∀ (image : PixelBuffer) (w h y x : Nat),
        (((filtered_pixel image w h y x).r.val : Nat) : Int)
            = (truncate_values (accumulate image w h y x).1 (accumulate image w h y x).2.1
                (accumulate image w h y x).2.2).1
        ∧ (((filtered_pixel image w h y x).g.val : Nat) : Int)
            = (truncate_values (accumulate image w h y x).1 (accumulate image w h y x).2.1
                (accumulate image w h y x).2.2).2.1
        ∧ (((filtered_pixel image w h y x).b.val : Nat) : Int)
            = (truncate_values (accumulate image w h y x).1 (accumulate image w h y x).2.1
                (accumulate image w h y x).2.2).2.2 := by
  have e := truncate_values_eq red green blue
  have r1 := clamp_0_255_range red
  have r2 := clamp_0_255_range green
  have r3 := clamp_0_255_range blue
  have stored : ∀ (image : PixelBuffer) (w h y x : Nat),
      (((filtered_pixel image w h y x).r.val : Nat) : Int)
          = (truncate_values (accumulate image w h y x).1 (accumulate image w h y x).2.1
              (accumulate image w h y x).2.2).1
      ∧ (((filtered_pixel image w h y x).g.val : Nat) : Int)
          = (truncate_values (accumulate image w h y x).1 (accumulate image w h y x).2.1
              (accumulate image w h y x).2.2).2.1
      ∧ (((filtered_pixel image w h y x).b.val : Nat) : Int)
          = (truncate_values (accumulate image w h y x).1 (accumulate image w h y x).2.1
              (accumulate image w h y x).2.2).2.2 := by
    intro image w h y x
    unfold filtered_pixel
    simp only [truncate_values_eq]
    exact ⟨to_uchar_val _ (clamp_0_255_range _).1 (clamp_0_255_range _).2,
      to_uchar_val _ (clamp_0_255_range _).1 (clamp_0_255_range _).2,
      to_uchar_val _ (clamp_0_255_range _).1 (clamp_0_255_range _).2⟩
  rw [e]
  exact ⟨rfl, r1, r2, r3, to_uchar_val _ r1.1 r1.2, to_uchar_val _ r2.1 r2.2,
    to_uchar_val _ r3.1 r3.2, stored⟩

theorem kernel_response_uniform (a : Nat) : kernel_response a a a a a a a a a = 0 := by
  unfold kernel_response; omega

theorem clamp_0_255_zero : clamp_0_255 0 = 0 := by decide

theorem div_mod_in_image (w h i : Nat) (hi : i < w * h) : i % w < w ∧ i / w < h := by
  have hw : 0 < w := by
    rcases Nat.eq_zero_or_pos w with h0 | h0
    · rw [h0] at hi; simp at hi
    · exact h0
  exact ⟨Nat.mod_lt _ hw, (Nat.div_lt_iff_lt_mul hw).2 (by rw [Nat.mul_comm]; exact hi)⟩

theorem channel_response_uniform (channel : PPMPixel → UChar) (image : PixelBuffer)
    (w h y x : Nat) (c : PPMPixel) (hw : w ≤ 2 ^ 31) (hh : h ≤ 2 ^ 31) (hx : x < w) (hy : y < h)
    (hu : ∀ i, i < w * h → image i = c) :
    channel_response channel image w h y x = 0 := by
  unfold channel_response
  rw [hu _ (sample_index_lt w h y x 0 0 hx hw hy hh (by decide) (by decide)),
    hu _ (sample_index_lt w h y x 0 1 hx hw hy hh (by decide) (by decide)),
    hu _ (sample_index_lt w h y x 0 2 hx hw hy hh (by decide) (by decide)),
    hu _ (sample_index_lt w h y x 1 0 hx hw hy hh (by decide) (by decide)),
    hu _ (sample_index_lt w h y x 1 1 hx hw hy hh (by decide) (by decide)),
    hu _ (sample_index_lt w h y x 1 2 hx hw hy hh (by decide) (by decide)),
    hu _ (sample_index_lt w h y x 2 0 hx hw hy hh (by decide) (by decide)),
    hu _ (sample_index_lt w h y x 2 1 hx hw hy hh (by decide) (by decide)),
    hu _ (sample_index_lt w h y x 2 2 hx hw hy hh (by decide) (by decide))]
  exact kernel_response_uniform _

/-- Where no wrapped coordinate is changed by its conversion to `int`, a
uniform image is filtered to black: for every width `1 ≤ w ≤ 2 ^ 31`, height
`1 ≤ h ≤ 2 ^ 31` and every colour `c`, filtering the uniform image whose
`w * h` pixels all equal `c` yields the all-black result: every channel of
every pixel is 0. -/
theorem uniform_image_filters_to_black (image result : PixelBuffer) (w h : Nat) (c : PPMPixel)
    (hw : w ≤ 2 ^ 31) (hh : h ≤ 2 ^ 31) (hu : ∀ i, i < w * h → image i = c) :
    ∀ i, i < w * h → apply_filters image w h result i = ⟨0, 0, 0⟩ := by
  intro i hi
  have hwh : w * h ≤ 2 ^ 31 * 2 ^ 31 := Nat.mul_le_mul hw hh
  have h62 : (2 : Nat) ^ 31 * 2 ^ 31 = 2 ^ 62 := by norm_num
  obtain ⟨hx, hy⟩ := div_mod_in_image w h i hi
  rw [apply_filters_result image w h (by omega) (by omega) result i, if_pos hi]
  unfold filtered_at
  obtain ⟨cr, cg, cb⟩ := filtered_pixel_channels image w h (i / w) (i % w)
  rw [channel_response_uniform _ image w h _ _ c hw hh hx hy hu, clamp_0_255_zero] at cr cg cb
  exact pixel_eq_of_channels _ 0 0 0 cr cg cb ⟨0, 0, 0⟩ rfl rfl rfl

/-- The 4 by 4 all-black image gives an all-black result. -/
theorem uniform_image_filters_to_black_witness :
    4 ≤ 2 ^ 31 ∧ 4 ≤ 2 ^ 31 ∧ (∀ i, i < 4 * 4 → black_image i = ⟨0, 0, 0⟩)
    ∧ ∀ i, i < 4 * 4 → apply_filters black_image 4 4 black_image i = ⟨0, 0, 0⟩ :=
  ⟨by decide, by decide, fun _ _ => rfl,
    uniform_image_filters_to_black black_image black_image 4 4 ⟨0, 0, 0⟩
      (by decide) (by decide) (fun _ _ => rfl)⟩

set_option maxRecDepth 100000 in
/-- C8, a defect of the code: the wrapped column is computed in `unsigned long`
and then stored in the `int x_coordinate`, which turns the column `2 ^ 31` into
`-2 ^ 31`.  On a black image of one row and `2 ^ 31 + 1` columns, a uniform
image, the centre column of the kernel for the pixel in column `2 ^ 31` is read
at element `2 ^ 64 - 2 ^ 31`, outside the image; with white pixels in the memory
there the stored pixel is white, where the result must be black. -/
theorem uniform_wide_row_counterexample :
    1 ≤ 2147483649 ∧ 1 ≤ 1
    ∧ (∀ i, i < 2147483649 * 1 → wide_black_row i = ⟨0, 0, 0⟩)
    ∧ 2147483648 < 2147483649 * 1
    ∧ sample_index 2147483649 1 0 2147483648 1 1 = 18446744071562067968
    ∧ apply_filters wide_black_row 2147483649 1 black_image 2147483648 = ⟨255, 255, 255⟩ := by
  refine ⟨by decide, by decide, ?_, by decide, by decide, ?_⟩
  · intro i hi
    unfold wide_black_row
    rw [if_pos (by omega)]
  · rw [apply_filters_result wide_black_row 2147483649 1 (by norm_num) (by norm_num) black_image,
      if_pos (by norm_num)]
    decide

theorem wrap_minus_one (x w : Nat) (hx : x < w) :
    (x + 0 + w - 1) % w = if x = 0 then w - 1 else x - 1 := by
  split
  · next h0 =>
    subst h0
    have e : 0 + 0 + w - 1 = w - 1 := by omega
    rw [e]
    exact Nat.mod_eq_of_lt (by omega)
  · next h0 =>
    have e : x + 0 + w - 1 = (x - 1) + w := by omega
    rw [e, Nat.add_mod_right]
    exact Nat.mod_eq_of_lt (by omega)

theorem wrap_zero (x w : Nat) (hx : x < w) : (x + 1 + w - 1) % w = x := by
  have e : x + 1 + w - 1 = x + w := by omega
  rw [e, Nat.add_mod_right]
  exact Nat.mod_eq_of_lt hx

theorem wrap_plus_one (x w : Nat) (hx : x < w) :
    (x + 2 + w - 1) % w = if x + 1 = w then 0 else x + 1 := by
  have e : x + 2 + w - 1 = (x + 1) + w := by omega
  rw [e, Nat.add_mod_right]
  split
  · next h0 => rw [h0]; exact Nat.mod_self w
  · next h0 => exact Nat.mod_eq_of_lt (by omega)

theorem succ_mod_eq (x w : Nat) (hx : x < w) :
    (x + 1) % w = if x + 1 = w then 0 else x + 1 := by
  split
  · next h0 => rw [h0]; exact Nat.mod_self w
  · next h0 => exact Nat.mod_eq_of_lt (by omega)

theorem sample_of_single_pixel (channel : PPMPixel → UChar) (hch : channel ⟨0, 0, 0⟩ = 0)
    (image : PixelBuffer) (w h px py : Nat) (c : PPMPixel) (y x fh fw : Nat)
    (hw : w ≤ 2 ^ 31) (hh : h ≤ 2 ^ 31) (hpx : px < w) (hx : x < w) (hy : y < h)
    (hfh : fh < 3) (hfw : fw < 3)
    (hs : ∀ i, i < w * h → image i = if i = py * w + px then c else ⟨0, 0, 0⟩) :
    ((channel (image (sample_index w h y x fh fw))).val : Nat)
      = if (y + fh + h - 1) % h = py ∧ (x + fw + w - 1) % w = px then (channel c).val else 0 := by
  rw [hs _ (sample_index_lt w h y x fh fw hx hw hy hh hfh hfw),
    sample_index_eq w h y x fh fw hx hw hy hh hfh hfw]
  have ha : (x + fw + w - 1) % w < w := Nat.mod_lt _ (by omega)
  generalize (x + fw + w - 1) % w = a at *
  generalize (y + fh + h - 1) % h = b at *
  have hw0 : 0 < w := by omega
  have key : b * w + a = py * w + px ↔ b = py ∧ a = px := by
    constructor
    · intro e
      have e1 : (b * w + a) / w = (py * w + px) / w := by rw [e]
      have e2 : (b * w + a) % w = (py * w + px) % w := by rw [e]
      rw [Nat.add_comm, Nat.add_mul_div_right _ _ hw0, Nat.div_eq_of_lt ha,
        Nat.add_comm (py * w), Nat.add_mul_div_right _ _ hw0,
        Nat.div_eq_of_lt hpx] at e1
      rw [Nat.add_comm, Nat.add_mul_mod_self_right, Nat.mod_eq_of_lt ha,
        Nat.add_comm (py * w), Nat.add_mul_mod_self_right, Nat.mod_eq_of_lt hpx] at e2
      exact ⟨by omega, e2⟩
    · rintro ⟨e1, e2⟩; rw [e1, e2]
  by_cases c1 : b = py ∧ a = px
  · rw [if_pos (key.2 c1), if_pos c1]
  · rw [if_neg (fun e => c1 (key.1 e)), if_neg c1, hch]; rfl

theorem kernel_response_by_axes (v : Nat) (A0 A1 A2 B0 B1 B2 : Prop)
    [Decidable A0] [Decidable A1] [Decidable A2] [Decidable B0] [Decidable B1] [Decidable B2]
    (hA01 : ¬(A0 ∧ A1)) (hA02 : ¬(A0 ∧ A2)) (hA12 : ¬(A1 ∧ A2))
    (hB01 : ¬(B0 ∧ B1)) (hB02 : ¬(B0 ∧ B2)) (hB12 : ¬(B1 ∧ B2)) :
    kernel_response
        (if B0 ∧ A0 then v else 0) (if B0 ∧ A1 then v else 0) (if B0 ∧ A2 then v else 0)
        (if B1 ∧ A0 then v else 0) (if B1 ∧ A1 then v else 0) (if B1 ∧ A2 then v else 0)
        (if B2 ∧ A0 then v else 0) (if B2 ∧ A1 then v else 0) (if B2 ∧ A2 then v else 0)
      = if B1 ∧ A1 then 8 * (v : Int)
        else if (B0 ∨ B1 ∨ B2) ∧ (A0 ∨ A1 ∨ A2) then -(v : Int) else 0 := by
  unfold kernel_response
  by_cases a0 : A0 <;> by_cases a1 : A1 <;> by_cases a2 : A2 <;>
    by_cases b0 : B0 <;> by_cases b1 : B1 <;> by_cases b2 : B2 <;>
    simp_all

/-- The exact kernel response of one channel for an image of width and height
`3 .. 2 ^ 31` that is black except for the pixel `(px, py)` of colour `c`:
eight times the channel at `(px, py)`, minus the channel at each of the eight
wrapped neighbours, zero elsewhere. -/
theorem channel_response_single_pixel (channel : PPMPixel → UChar)
    (hch : channel ⟨0, 0, 0⟩ = 0) (image : PixelBuffer) (w h px py : Nat) (c : PPMPixel)
    (y x : Nat) (hw3 : 3 ≤ w) (hw : w ≤ 2 ^ 31) (hh3 : 3 ≤ h) (hh : h ≤ 2 ^ 31)
    (hpx : px < w) (hpy : py < h) (hx : x < w) (hy : y < h)
    (hs : ∀ i, i < w * h → image i = if i = py * w + px then c else ⟨0, 0, 0⟩) :
    channel_response channel image w h y x
      = if y = py ∧ x = px then 8 * (((channel c).val : Nat) : Int)
        else if wrap_adjacent h y py ∧ wrap_adjacent w x px then -(((channel c).val : Nat) : Int)
        else 0 := by
  unfold channel_response
  simp only [sample_of_single_pixel channel hch image w h px py c y x _ _ hw hh hpx hx hy
    (show 0 < 3 by decide) (show 0 < 3 by decide) hs,
    sample_of_single_pixel channel hch image w h px py c y x _ _ hw hh hpx hx hy
    (show 0 < 3 by decide) (show 1 < 3 by decide) hs,
    sample_of_single_pixel channel hch image w h px py c y x _ _ hw hh hpx hx hy
    (show 0 < 3 by decide) (show 2 < 3 by decide) hs,
    sample_of_single_pixel channel hch image w h px py c y x _ _ hw hh hpx hx hy
    (show 1 < 3 by decide) (show 0 < 3 by decide) hs,
    sample_of_single_pixel channel hch image w h px py c y x _ _ hw hh hpx hx hy
    (show 1 < 3 by decide) (show 1 < 3 by decide) hs,
    sample_of_single_pixel channel hch image w h px py c y x _ _ hw hh hpx hx hy
    (show 1 < 3 by decide) (show 2 < 3 by decide) hs,
    sample_of_single_pixel channel hch image w h px py c y x _ _ hw hh hpx hx hy
    (show 2 < 3 by decide) (show 0 < 3 by decide) hs,
    sample_of_single_pixel channel hch image w h px py c y x _ _ hw hh hpx hx hy
    (show 2 < 3 by decide) (show 1 < 3 by decide) hs,
    sample_of_single_pixel channel hch image w h px py c y x _ _ hw hh hpx hx hy
    (show 2 < 3 by decide) (show 2 < 3 by decide) hs]
  have x0 := wrap_minus_one x w hx
  have x1 := wrap_zero x w hx
  have x2 := wrap_plus_one x w hx
  have y0 := wrap_minus_one y h hy
  have y1 := wrap_zero y h hy
  have y2 := wrap_plus_one y h hy
  have sx := succ_mod_eq x w hx
  have spx := succ_mod_eq px w hpx
  have sy := succ_mod_eq y h hy
  have spy := succ_mod_eq py h hpy
  rw [kernel_response_by_axes _ _ _ _ _ _ _
    (by rw [x0, x1]; split <;> omega) (by rw [x0, x2]; split <;> split <;> omega)
    (by rw [x1, x2]; split <;> omega)
    (by rw [y0, y1]; split <;> omega) (by rw [y0, y2]; split <;> split <;> omega)
    (by rw [y1, y2]; split <;> omega)]
  have eA : ((x + 0 + w - 1) % w = px ∨ x = px ∨ (x + 2 + w - 1) % w = px)
      ↔ wrap_adjacent w x px := by
    unfold wrap_adjacent
    rw [x0, x2, sx, spx]
    split <;> split <;> split <;> omega
  have eB : ((y + 0 + h - 1) % h = py ∨ y = py ∨ (y + 2 + h - 1) % h = py)
      ↔ wrap_adjacent h y py := by
    unfold wrap_adjacent
    rw [y0, y2, sy, spy]
    split <;> split <;> split <;> omega
  simp only [x1, y1, eA, eB]

theorem apply_filters_at (image result : PixelBuffer) (w h x y : Nat)
    (hw : w ≤ 2 ^ 31) (hh : h ≤ 2 ^ 31) (hx : x < w) (hy : y < h) :
    apply_filters image w h result (y * w + x) = filtered_pixel image w h y x := by
  have hwh : w * h ≤ 2 ^ 31 * 2 ^ 31 := Nat.mul_le_mul hw hh
  have h62 : (2 : Nat) ^ 31 * 2 ^ 31 = 2 ^ 62 := by norm_num
  have hlt : y * w + x < w * h := by
    have : (y + 1) * w ≤ h * w := Nat.mul_le_mul_right _ hy
    rw [Nat.add_mul, Nat.one_mul] at this
    have hcomm : h * w = w * h := Nat.mul_comm _ _
    omega
  have e1 : (y * w + x) / w = y := by
    rw [Nat.add_comm, Nat.add_mul_div_right _ _ (show 0 < w by omega), Nat.div_eq_of_lt hx]
    simp
  have e2 : (y * w + x) % w = x := by
    rw [Nat.add_comm, Nat.add_mul_mod_self_right, Nat.mod_eq_of_lt hx]
  rw [apply_filters_result image w h (by omega) (by omega) result (y * w + x), if_pos hlt]
  unfold filtered_at
  rw [e1, e2]

theorem clamp_of_eight_times (v : Nat) (n : Nat)
    (h : ((n : Nat) : Int) = clamp_0_255 (8 * ((v : Nat) : Int))) : n = min 255 (8 * v) := by
  unfold clamp_0_255 at h
  split at h
  · omega
  · split at h <;> omega

theorem clamp_of_negated (v : Nat) : clamp_0_255 (-((v : Nat) : Int)) = 0 := by
  unfold clamp_0_255
  split
  · rfl
  · split <;> omega

/-- C9 (amended): for every 5 by 5 image that is black except for a single
bright pixel `(px, py)` of colour `c`, the raw sums at the bright pixel are
`8 * c.r, 8 * c.g, 8 * c.b` (not negative) and the stored channels are
`min 255 (8 * c.r)` and so on; at each of that pixel's eight wrapped neighbours
the raw sums are `-c.r, -c.g, -c.b` and the stored pixel is `(0, 0, 0)`. -/
theorem single_bright_pixel_response (image result : PixelBuffer) (px py : Nat) (c : PPMPixel)
    (hpx : px < 5) (hpy : py < 5)
    (hs : ∀ i, i < 5 * 5 → image i = if i = py * 5 + px then c else ⟨0, 0, 0⟩) :
    accumulate image 5 5 py px
        = (8 * ((c.r.val : Nat) : Int), 8 * ((c.g.val : Nat) : Int), 8 * ((c.b.val : Nat) : Int))
    ∧ (apply_filters image 5 5 result (py * 5 + px)).r.val = min 255 (8 * c.r.val)
    ∧ (apply_filters image 5 5 result (py * 5 + px)).g.val = min 255 (8 * c.g.val)
    ∧ (apply_filters image 5 5 result (py * 5 + px)).b.val = min 255 (8 * c.b.val)
    ∧ ∀ ox oy, ox < 3 → oy < 3 → ¬(ox = 1 ∧ oy = 1) →
        accumulate image 5 5 ((py + oy + 4) % 5) ((px + ox + 4) % 5)
            = (-((c.r.val : Nat) : Int), -((c.g.val : Nat) : Int), -((c.b.val : Nat) : Int))
        ∧ apply_filters image 5 5 result (((py + oy + 4) % 5) * 5 + (px + ox + 4) % 5)
            = ⟨0, 0, 0⟩ := by
  have resp : ∀ (channel : PPMPixel → UChar), channel ⟨0, 0, 0⟩ = 0 → ∀ y x, y < 5 → x < 5 →
      channel_response channel image 5 5 y x
        = if y = py ∧ x = px then 8 * (((channel c).val : Nat) : Int)
          else if wrap_adjacent 5 y py ∧ wrap_adjacent 5 x px
            then -(((channel c).val : Nat) : Int) else 0 :=
    fun channel hch y x hy hx =>
      channel_response_single_pixel channel hch image 5 5 px py c y x (by decide) (by decide)
        (by decide) (by decide) hpx hpy hx hy hs
  have centre : ∀ (channel : PPMPixel → UChar), channel ⟨0, 0, 0⟩ = 0 →
      channel_response channel image 5 5 py px = 8 * (((channel c).val : Nat) : Int) :=
    fun channel hch => by rw [resp channel hch py px hpy hpx, if_pos ⟨rfl, rfl⟩]
  obtain ⟨cr, cg, cb⟩ := filtered_pixel_channels image 5 5 py px
  rw [centre _ rfl] at cr cg cb
  refine ⟨?_, ?_, ?_, ?_, ?_⟩
  · rw [accumulate_eq, centre _ rfl, centre _ rfl, centre _ rfl]
  · rw [apply_filters_at image result 5 5 px py (by decide) (by decide) hpx hpy]
    exact clamp_of_eight_times _ _ cr
  · rw [apply_filters_at image result 5 5 px py (by decide) (by decide) hpx hpy]
    exact clamp_of_eight_times _ _ cg
  · rw [apply_filters_at image result 5 5 px py (by decide) (by decide) hpx hpy]
    exact clamp_of_eight_times _ _ cb
  · intro ox oy hox hoy hne
    have hx : (px + ox + 4) % 5 < 5 := Nat.mod_lt _ (by decide)
    have hy : (py + oy + 4) % 5 < 5 := Nat.mod_lt _ (by decide)
    have near : ∀ (channel : PPMPixel → UChar), channel ⟨0, 0, 0⟩ = 0 →
        channel_response channel image 5 5 ((py + oy + 4) % 5) ((px + ox + 4) % 5)
          = -(((channel c).val : Nat) : Int) := by
      intro channel hch
      rw [resp channel hch _ _ hy hx, if_neg (by omega), if_pos]
      unfold wrap_adjacent
      omega
    obtain ⟨nr, ng, nb⟩ :=
      filtered_pixel_channels image 5 5 ((py + oy + 4) % 5) ((px + ox + 4) % 5)
    rw [near _ rfl, clamp_of_negated] at nr ng nb
    refine ⟨?_, ?_⟩
    · rw [accumulate_eq, near _ rfl, near _ rfl, near _ rfl]
    · rw [apply_filters_at image result 5 5 _ _ (by decide) (by decide) hx hy]
      exact pixel_eq_of_channels _ 0 0 0 nr ng nb ⟨0, 0, 0⟩ rfl rfl rfl

/-- Witness for C9 (amended): the white pixel in the centre of a 5 by 5 black
image. -/
theorem single_bright_pixel_response_witness :
    2 < 5 ∧ 2 < 5
    ∧ (∀ i, i < 5 * 5 →
        single_bright_image i = if i = 2 * 5 + 2 then ⟨255, 255, 255⟩ else ⟨0, 0, 0⟩)
    ∧ (accumulate single_bright_image 5 5 2 2
        = (8 * (((⟨255, 255, 255⟩ : PPMPixel).r.val : Nat) : Int),
           8 * (((⟨255, 255, 255⟩ : PPMPixel).g.val : Nat) : Int),
           8 * (((⟨255, 255, 255⟩ : PPMPixel).b.val : Nat) : Int))
    ∧ (apply_filters single_bright_image 5 5 black_image (2 * 5 + 2)).r.val
        = min 255 (8 * (⟨255, 255, 255⟩ : PPMPixel).r.val)
    ∧ (apply_filters single_bright_image 5 5 black_image (2 * 5 + 2)).g.val
        = min 255 (8 * (⟨255, 255, 255⟩ : PPMPixel).g.val)
    ∧ (apply_filters single_bright_image 5 5 black_image (2 * 5 + 2)).b.val
        = min 255 (8 * (⟨255, 255, 255⟩ : PPMPixel).b.val)
    ∧ ∀ ox oy, ox < 3 → oy < 3 → ¬(ox = 1 ∧ oy = 1) →
        accumulate single_bright_image 5 5 ((2 + oy + 4) % 5) ((2 + ox + 4) % 5)
            = (-(((⟨255, 255, 255⟩ : PPMPixel).r.val : Nat) : Int),
               -(((⟨255, 255, 255⟩ : PPMPixel).g.val : Nat) : Int),
               -(((⟨255, 255, 255⟩ : PPMPixel).b.val : Nat) : Int))
        ∧ apply_filters single_bright_image 5 5 black_image
            (((2 + oy + 4) % 5) * 5 + (2 + ox + 4) % 5) = ⟨0, 0, 0⟩) :=
  ⟨by decide, by decide, fun _ _ => rfl,
    single_bright_pixel_response single_bright_image black_image 2 2 ⟨255, 255, 255⟩
      (by decide) (by decide) (fun _ _ => rfl)⟩

set_option maxRecDepth 100000 in
/-- C9 (counterexample): the 5 by 5 black image with a white pixel in its
centre (index 12).  The raw sum at the bright pixel is 2040 in each channel,
not negative, and the stored pixel is white, not 0; the stored pixel at each
of the eight neighbours (indices 6, 7, 8, 11, 13, 16, 17, 18) is black, not
positive. -/
theorem single_bright_pixel_counterexample :
    accumulate single_bright_image 5 5 2 2 = (2040, 2040, 2040)
    ∧ apply_filters single_bright_image 5 5 black_image 12 = ⟨255, 255, 255⟩
    ∧ (∀ j ∈ [6, 7, 8, 11, 13, 16, 17, 18],
        apply_filters single_bright_image 5 5 black_image j = ⟨0, 0, 0⟩) := by
  refine ⟨by decide, ?_, ?_⟩
  · rw [apply_filters_result single_bright_image 5 5 (by norm_num) (by norm_num) black_image,
      if_pos (by norm_num)]
    decide
  · intro j hj
    rw [apply_filters_result single_bright_image 5 5 (by norm_num) (by norm_num) black_image]
    revert j
    decide

/-! ## Claims about the codec -/

/-- C4 (the code at the failing input): `write_image` writes the 1 by 1 image
with the pixel `(10, 20, 30)` as `P6\n1 1\n255\n` followed by the bytes
10, 20, 30, and `read_image`, given these bytes, returns `NULL` whatever the
fuel: the `\n` that ends the format `"%d\n"` consumes the payload byte 10. -/
theorem read_image_of_written_newline_pixel :
    write_image_bytes newline_pixel_image 1 1
        = [80, 54, 10, 49, 32, 49, 10, 50, 53, 53, 10, 10, 20, 30]
    ∧ ∀ fuel, read_image (fuel + 1) (some (write_image_bytes newline_pixel_image 1 1))
        (fun _ => true) = some (read_result.null (some 1) (some 1)) :=
  ⟨by decide, fun _ => rfl⟩

/-- C6 (the code at the failing input): the file has the tag `P6`, the maximum
value 255, width 1, height 1 and four bytes 32, 1, 2, 3 after the header;
`read_image` returns the pixel `(1, 2, 3)`, not the first three bytes
`(32, 1, 2)`. -/
theorem read_image_skips_space_payload :
    space_payload_file = [80, 54, 10, 49, 32, 49, 10, 50, 53, 53, 10, 32, 1, 2, 3]
    ∧ ∀ fuel, read_image (fuel + 1) (some space_payload_file) (fun _ => true)
        = some (read_result.image [⟨1, 2, 3⟩] 1 1) :=
  ⟨by decide, fun _ => rfl⟩

/-! ## Claims about the orchestration -/

theorem filter_and_write_total (env : platform) (args : file_name_args) (fs fe : timeval)
    (image : PixelBuffer) (w h : Nat) (st st1 : process_state)
    (hr : filter_and_write env args fs fe image w h st = outcome.returned st1) :
    st1.total_elapsed_time = st.total_elapsed_time + elapsed_seconds fs fe := by
  unfold filter_and_write at hr
  split at hr
  · split at hr
    · injection hr with hr
      rw [← hr]
      rfl
    · exact absurd hr (by simp)
    · exact absurd hr (by simp)
  · exact absurd hr (by simp)
  · exact absurd hr (by simp)

theorem manage_image_file_total (fuel : Nat) (env : platform) (args : file_name_args)
    (fs fe : timeval) (st st1 : process_state)
    (hr : manage_image_file fuel env args fs fe st = some (outcome.returned st1)) :
    st1.total_elapsed_time = st.total_elapsed_time + elapsed_seconds fs fe := by
  unfold manage_image_file at hr
  split at hr
  · exact absurd hr (by simp)
  · injection hr with hr
    exact filter_and_write_total _ _ _ _ _ _ _ _ _ hr
  · split at hr
    · injection hr with hr
      exact filter_and_write_total _ _ _ _ _ _ _ _ _ hr
    · exact absurd hr (by simp)
  · exact absurd hr (by simp)
  · exact absurd hr (by simp)

theorem run_image_threads_total (fuel : Nat) (env : platform) (threads : List image_thread)
    (st st1 : process_state)
    (hr : run_image_threads fuel env threads st = some (outcome.returned st1)) :
    st1.total_elapsed_time = st.total_elapsed_time + (threads.map measured).sum := by
  induction threads generalizing st with
  | nil =>
    unfold run_image_threads at hr
    injection hr with hr
    injection hr with hr
    rw [← hr]; simp
  | cons t rest ih =>
    unfold run_image_threads at hr
    split at hr
    · next st2 h2 =>
      rw [ih st2 hr, manage_image_file_total fuel env _ _ _ st st2 h2, List.map_cons,
        List.sum_cons]
      unfold measured
      ring
    · next hne =>
      exact absurd hr (hne st1)

/-- What `main` does with the total: when the `k` image threads of a batch have
been joined, the accumulator `total_elapsed_time`, which starts at 0, holds
exactly the sum `d_1 + ... + d_k` of the durations that the threads measured;
`main` then assigns to it the time between its own two clock readings and
prints that number. -/
theorem main_prints_wall_clock_time (fuel : Nat) (env : platform) (threads : List image_thread)
    (start end_ : timeval) (st joined : process_state) (h0 : st.total_elapsed_time = 0)
    (hjoin : run_image_threads fuel env threads st = some (outcome.returned joined)) :
    joined.total_elapsed_time = (threads.map measured).sum
    ∧ main_join_and_report fuel env threads start end_ st
        = some (outcome.returned (elapsed_seconds start end_,
            { files := joined.files, total_elapsed_time := elapsed_seconds start end_ })) := by
  refine ⟨?_, ?_⟩
  · rw [run_image_threads_total fuel env threads st joined hjoin, h0, zero_add]
  · unfold main_join_and_report
    rw [hjoin]

/-- Two threads that each measure one second, joined by a `main` whose own
clock readings are one second apart. -/
theorem main_prints_wall_clock_time_witness :
    ∃ joined : process_state,
      two_inputs_state.total_elapsed_time = 0
      ∧ run_image_threads 1 generous_platform [thread_a, thread_b] two_inputs_state
          = some (outcome.returned joined)
      ∧ joined.total_elapsed_time = ([thread_a, thread_b].map measured).sum
      ∧ main_join_and_report 1 generous_platform [thread_a, thread_b]
          { tv_sec := 0, tv_usec := 0 } { tv_sec := 1, tv_usec := 0 } two_inputs_state
          = some (outcome.returned
              (elapsed_seconds { tv_sec := 0, tv_usec := 0 } { tv_sec := 1, tv_usec := 0 },
               { files := joined.files
                 total_elapsed_time :=
                  elapsed_seconds { tv_sec := 0, tv_usec := 0 } { tv_sec := 1, tv_usec := 0 } })) :=
  ⟨_, rfl, rfl,
    main_prints_wall_clock_time 1 generous_platform [thread_a, thread_b]
      { tv_sec := 0, tv_usec := 0 } { tv_sec := 1, tv_usec := 0 } two_inputs_state _ rfl rfl⟩

/-- C5, a defect of the code: `main` discards the total that the threads have
accumulated through `update_total_elapsed_time` and prints the time between its
own two clock readings.  For a batch of two images whose threads each measure a
duration of one second while `main` measures one second between its two clock
readings, the durations sum to 2 and the accumulator holds 2 after the join,
but the total that `main` prints is 1, less than the sum. -/
theorem main_total_counterexample :
    ∃ joined final : process_state,
      run_image_threads 1 generous_platform [thread_a, thread_b] two_inputs_state
          = some (outcome.returned joined)
      ∧ measured thread_a + measured thread_b = 2
      ∧ joined.total_elapsed_time = 2
      ∧ main_join_and_report 1 generous_platform [thread_a, thread_b]
          { tv_sec := 0, tv_usec := 0 } { tv_sec := 1, tv_usec := 0 } two_inputs_state
          = some (outcome.returned (1, final)) := by
  have hrun : ∃ joined : process_state,
      run_image_threads 1 generous_platform [thread_a, thread_b] two_inputs_state
        = some (outcome.returned joined) := ⟨_, rfl⟩
  obtain ⟨joined, hj⟩ := hrun
  have hsum : measured thread_a + measured thread_b = 2 := by
    norm_num [measured, elapsed_seconds, thread_a, thread_b]
  have hwall : elapsed_seconds { tv_sec := 0, tv_usec := 0 } { tv_sec := 1, tv_usec := 0 } = 1 := by
    norm_num [elapsed_seconds]
  refine ⟨joined, { files := joined.files, total_elapsed_time := 1 }, hj, hsum, ?_, ?_⟩
  · rw [run_image_threads_total _ _ _ _ _ hj]
    simp only [List.map_cons, List.map_nil, List.sum_cons, List.sum_nil]
    rw [show two_inputs_state.total_elapsed_time = 0 from rfl]
    linarith
  · unfold main_join_and_report
    rw [hj]
    simp only [hwall]

theorem traced_row_loop (image : PixelBuffer) (w h y : Nat) (res : PixelBuffer) (log : List Nat)
    (hb : y * w + w ≤ 2 ^ 64) :
    for_loop 0 w (fun x (state : PixelBuffer × List Nat) =>
        (buffer_set state.1 (result_index w y x) (filtered_pixel image w h y x),
         state.2 ++ [result_index w y x])) (res, log)
      = (for_loop 0 w (fun x r => buffer_set r (result_index w y x) (filtered_pixel image w h y x))
          res, log ++ List.range' (y * w) w) := by
  have key : ∀ n, n ≤ w →
      (List.range' 0 n).foldl (fun (acc : PixelBuffer × List Nat) x =>
        (buffer_set acc.1 (result_index w y x) (filtered_pixel image w h y x),
         acc.2 ++ [result_index w y x])) (res, log)
      = ((List.range' 0 n).foldl (fun acc x =>
          buffer_set acc (result_index w y x) (filtered_pixel image w h y x)) res,
         log ++ List.range' (y * w) n) := by
    intro n
    induction n with
    | zero => intro _; simp
    | succ n ih =>
      intro hn
      rw [List.range'_concat, List.foldl_append, List.foldl_append, ih (by omega)]
      simp only [List.foldl_cons, List.foldl_nil, Nat.one_mul, Nat.zero_add]
      rw [result_index_eq w y n (by omega), List.range'_concat, Nat.one_mul, List.append_assoc]
  have := key w (Nat.le_refl _)
  unfold for_loop
  rw [Nat.sub_zero]
  exact this

theorem traced_thread (p : parameter) (res : PixelBuffer) (log : List Nat)
    (h1 : p.start + p.size < 2 ^ 64) (h2 : (p.start + p.size) * p.w ≤ 2 ^ 64) :
    compute_laplacian_threadfn_traced p (res, log)
      = (compute_laplacian_threadfn p res,
         log ++ List.range' (p.start * p.w) (p.size * p.w)) := by
  unfold compute_laplacian_threadfn_traced compute_laplacian_threadfn
  dsimp only
  rw [ulong_add_eq _ _ h1]
  have key : ∀ n, n ≤ p.size →
      (List.range' p.start n).foldl (fun (acc : PixelBuffer × List Nat) y =>
        for_loop 0 p.w (fun x (state : PixelBuffer × List Nat) =>
          (buffer_set state.1 (result_index p.w y x) (filtered_pixel p.image p.w p.h y x),
           state.2 ++ [result_index p.w y x])) acc) (res, log)
      = ((List.range' p.start n).foldl (fun acc y =>
          for_loop 0 p.w (fun x r =>
            buffer_set r (result_index p.w y x) (filtered_pixel p.image p.w p.h y x)) acc) res,
         log ++ List.range' (p.start * p.w) (n * p.w)) := by
    intro n
    induction n with
    | zero => intro _; simp
    | succ n ih =>
      intro hn
      rw [List.range'_concat, List.foldl_append, List.foldl_append, ih (by omega)]
      simp only [List.foldl_cons, List.foldl_nil, Nat.one_mul]
      have hle : (p.start + n + 1) * p.w ≤ (p.start + p.size) * p.w :=
        Nat.mul_le_mul_right _ (by omega)
      have e : (p.start + n + 1) * p.w = (p.start + n) * p.w + p.w := by
        rw [Nat.add_mul, Nat.one_mul]
      rw [traced_row_loop p.image p.w p.h (p.start + n) _ _ (by omega), List.append_assoc]
      congr 2
      have e2 : (p.start + n) * p.w = p.start * p.w + 1 * (n * p.w) := by
        rw [Nat.add_mul, Nat.one_mul]
      have e3 : (n + 1) * p.w = n * p.w + p.w := by rw [Nat.add_mul, Nat.one_mul]
      rw [e2, e3, List.range'_append, Nat.add_comm (p.w)]
  have := key p.size (Nat.le_refl _)
  unfold for_loop
  have e : p.start + p.size - p.start = p.size := by omega
  rw [e]
  exact this

theorem thread_writes_eq (p : parameter)
    (h1 : p.start + p.size < 2 ^ 64) (h2 : (p.start + p.size) * p.w ≤ 2 ^ 64) :
    thread_writes p = List.range' (p.start * p.w) (p.size * p.w) := by
  unfold thread_writes
  rw [traced_thread p black_image [] h1 h2]
  simp

theorem mem_range_iff_row_column (a n w j : Nat) :
    j ∈ List.range' (a * w) (n * w) ↔ ∃ y x, a ≤ y ∧ y < a + n ∧ x < w ∧ j = y * w + x := by
  rw [List.mem_range'_1]
  constructor
  · rintro ⟨h1, h2⟩
    have hw : 0 < w := by
      rcases Nat.eq_zero_or_pos w with h0 | h0
      · subst h0; simp at h2
      · exact h0
    have e : a * w + n * w = (a + n) * w := by rw [Nat.add_mul]
    refine ⟨j / w, j % w, (Nat.le_div_iff_mul_le hw).2 h1,
      (Nat.div_lt_iff_lt_mul hw).2 (by omega), Nat.mod_lt _ hw, ?_⟩
    rw [Nat.mul_comm]
    exact (Nat.div_add_mod j w).symm
  · rintro ⟨y, x, h1, h2, h3, rfl⟩
    have l1 : a * w ≤ y * w := Nat.mul_le_mul_right _ h1
    have l2 : (y + 1) * w ≤ (a + n) * w := Nat.mul_le_mul_right _ h2
    rw [Nat.add_mul, Nat.one_mul, Nat.add_mul] at l2
    omega

theorem count_range_eq_one (a n j : Nat) (hj : j ∈ List.range' a n) :
    (List.range' a n).count j = 1 :=
  List.count_eq_one_of_mem (List.nodup_range' a n) hj

theorem slice_writes (T : Nat) (image : PixelBuffer) (w h i : Nat) (hi : i < T)
    (hh : h < 2 ^ 64) (hwh : w * h < 2 ^ 64) :
    thread_writes (slice_parameter T image w h i)
      = List.range' ((slice_parameter T image w h i).start * w)
          ((slice_parameter T image w h i).size * w) := by
  have he := slice_start_add_size T image w h i hi hh
  have hle := slice_end_le T h i hi
  have hmul : slice_end T h i * w ≤ h * w := Nat.mul_le_mul_right _ hle
  have hcomm : h * w = w * h := Nat.mul_comm _ _
  exact thread_writes_eq (slice_parameter T image w h i) (by rw [he]; omega)
    (by rw [he]; show slice_end T h i * w ≤ _; omega)

theorem mem_slice_writes_iff (T : Nat) (image : PixelBuffer) (w h i j : Nat) (hi : i < T)
    (hh : h < 2 ^ 64) (hwh : w * h < 2 ^ 64) :
    j ∈ thread_writes (slice_parameter T image w h i) ↔ in_slice T w h i j := by
  rw [slice_writes T image w h i hi hh hwh, List.mem_range'_1, ← Nat.add_mul,
    slice_start_add_size T image w h i hi hh, slice_start T image w h i hi hh]
  rfl

theorem in_slice_unique (T w h i k j : Nat) (hi : i < T) (hk : k < T)
    (h1 : in_slice T w h i j) (h2 : in_slice T w h k j) : i = k := by
  have hw : 0 < w := by
    rcases Nat.eq_zero_or_pos w with h0 | h0
    · subst h0
      have := h1.2
      simp at this
    · exact h0
  exact row_slice_unique T h (j / w) i k hi hk
    ((Nat.le_div_iff_mul_le hw).2 h1.1) ((Nat.div_lt_iff_lt_mul hw).2 h1.2)
    ((Nat.le_div_iff_mul_le hw).2 h2.1) ((Nat.div_lt_iff_lt_mul hw).2 h2.2)

theorem empty_slice_untouched (p : parameter) (state : PixelBuffer × List Nat)
    (h : p.size = 0 ∨ p.w = 0) (h1 : p.start + p.size < 2 ^ 64)
    (h2 : (p.start + p.size) * p.w ≤ 2 ^ 64) :
    compute_laplacian_threadfn_traced p state = state := by
  obtain ⟨res, log⟩ := state
  rw [traced_thread p res log h1 h2]
  have e : p.size * p.w = 0 := by
    rcases h with h | h <;> rw [h] <;> simp
  rw [e]
  simp only [List.range'_zero, List.append_nil]
  congr 1
  funext j
  rw [thread_pointwise p res h1 h2 j, if_neg]
  rw [Nat.add_mul, e]
  omega

/-- C11: for every height `h` (an `unsigned long`) and worker count `T ≥ 1`,
slice `i` of `apply_filters` starts at row `i * (h / T)`; its size is `h / T`
for every `i < T - 1` and `h - (T - 1) * (h / T)` for the last slice; when
`h < T` each of the first `T - 1` slices has size 0 and its worker writes no
pixel and leaves the result as it is, while the last slice is `[0, h)`. -/
theorem slice_start_and_size (T : Nat) (image : PixelBuffer) (w h : Nat)
    (hT : 1 ≤ T) (hh : h < 2 ^ 64) :
    (∀ i, i < T → (slice_parameter T image w h i).start = i * (h / T))
    ∧ (∀ i, i + 1 < T → (slice_parameter T image w h i).size = h / T)
    ∧ (slice_parameter T image w h (T - 1)).size = h - (T - 1) * (h / T)
    ∧ (h < T →
        (∀ i, i + 1 < T →
          (slice_parameter T image w h i).size = 0
          ∧ thread_writes (slice_parameter T image w h i) = []
          ∧ ∀ result, compute_laplacian_threadfn (slice_parameter T image w h i) result = result)
        ∧ (slice_parameter T image w h (T - 1)).start = 0
        ∧ (slice_parameter T image w h (T - 1)).size = h) := by
  have hstart : ∀ i, i < T → (slice_parameter T image w h i).start = i * (h / T) :=
    fun i hi => slice_start T image w h i hi hh
  have hsize : ∀ i, i + 1 < T → (slice_parameter T image w h i).size = h / T := by
    intro i hi
    rw [slice_size T image w h i (by omega) hh, if_neg (by omega)]
  have hlast : (slice_parameter T image w h (T - 1)).size = h - (T - 1) * (h / T) := by
    rw [slice_size T image w h (T - 1) (by omega) hh, if_pos rfl]
  refine ⟨hstart, hsize, hlast, ?_⟩
  intro hlt
  have hq : h / T = 0 := Nat.div_eq_of_lt hlt
  refine ⟨?_, ?_, ?_⟩
  · intro i hi
    have hs0 : (slice_parameter T image w h i).size = 0 := by rw [hsize i hi, hq]
    have hst : (slice_parameter T image w h i).start = 0 := by
      rw [hstart i (by omega), hq, Nat.mul_zero]
    have key : ∀ state : PixelBuffer × List Nat,
        compute_laplacian_threadfn_traced (slice_parameter T image w h i) state = state :=
      fun state => empty_slice_untouched _ state (Or.inl hs0)
        (by rw [hs0, hst]; decide) (by rw [hs0, hst]; simp)
    refine ⟨hs0, ?_, ?_⟩
    · unfold thread_writes
      rw [key]
    · intro result
      have := traced_thread (slice_parameter T image w h i) result []
        (by rw [hs0, hst]; decide) (by rw [hs0, hst]; simp)
      rw [key] at this
      exact (congrArg Prod.fst this).symm
  · rw [hstart (T - 1) (by omega), hq, Nat.mul_zero]
  · rw [hlast, hq, Nat.mul_zero, Nat.sub_zero]

/-- Witness for C11: four workers and a height of three rows. -/
theorem slice_start_and_size_witness :
    1 ≤ 4 ∧ 3 < 2 ^ 64
    ∧ (∀ i, i < 4 → (slice_parameter 4 black_image 5 3 i).start = i * (3 / 4))
    ∧ (∀ i, i + 1 < 4 → (slice_parameter 4 black_image 5 3 i).size = 3 / 4)
    ∧ (slice_parameter 4 black_image 5 3 (4 - 1)).size = 3 - (4 - 1) * (3 / 4)
    ∧ (3 < 4 →
        (∀ i, i + 1 < 4 →
          (slice_parameter 4 black_image 5 3 i).size = 0
          ∧ thread_writes (slice_parameter 4 black_image 5 3 i) = []
          ∧ ∀ result,
              compute_laplacian_threadfn (slice_parameter 4 black_image 5 3 i) result = result)
        ∧ (slice_parameter 4 black_image 5 3 (4 - 1)).start = 0
        ∧ (slice_parameter 4 black_image 5 3 (4 - 1)).size = 3) :=
  ⟨by decide, by decide, slice_start_and_size 4 black_image 5 3 (by decide) (by decide)⟩

/-- C15: for every image with `1 ≤ w < 2 ^ 31` and `1 ≤ h < 2 ^ 31`, every
pixel `(x, y)` of it and every kernel offset, the wrapped coordinates that
`compute_laplacian_threadfn` computes in `unsigned long` and stores in an `int`
are the wrapped column and row, they satisfy `0 ≤ x_coordinate < w` and
`0 ≤ y_coordinate < h`, and the sample index `y_coordinate * w + x_coordinate`
is below `w * h`.  When `w = 0` or `h = 0` no worker of `apply_filters` runs an
iteration of its pixel loop: it writes nothing and computes no sample. -/
theorem wrapped_coordinates_in_range :
    (∀ w h x y fh fw : Nat, 1 ≤ w → w < 2 ^ 31 → 1 ≤ h → h < 2 ^ 31 → x < w → y < h →
      fh < 3 → fw < 3 →
      x_coordinate x fw w = (((x + fw + w - 1) % w : Nat) : Int)
      ∧ y_coordinate y fh h = (((y + fh + h - 1) % h : Nat) : Int)
      ∧ 0 ≤ x_coordinate x fw w ∧ x_coordinate x fw w < (w : Int)
      ∧ 0 ≤ y_coordinate y fh h ∧ y_coordinate y fh h < (h : Int)
      ∧ sample_index w h y x fh fw
          = (y_coordinate y fh h).toNat * w + (x_coordinate x fw w).toNat
      ∧ sample_index w h y x fh fw < w * h)
    ∧ (∀ (T : Nat) (image : PixelBuffer) (w h i : Nat) (state : PixelBuffer × List Nat),
      1 ≤ T → h < 2 ^ 64 → w = 0 ∨ h = 0 → i < T →
      compute_laplacian_threadfn_traced (slice_parameter T image w h i) state = state) := by
  refine ⟨?_, ?_⟩
  · intro w h x y fh fw _ hw _ hh hx hy hfh hfw
    have ex := x_coordinate_eq x fw w hx (by omega) hfw
    have ey := y_coordinate_eq y fh h hy (by omega) hfh
    have hxl : (x + fw + w - 1) % w < w := Nat.mod_lt _ (by omega)
    have hyl : (y + fh + h - 1) % h < h := Nat.mod_lt _ (by omega)
    refine ⟨ex, ey, ?_, ?_, ?_, ?_, ?_, ?_⟩
    · rw [ex]; exact Int.ofNat_nonneg _
    · rw [ex]; exact Int.ofNat_lt.2 hxl
    · rw [ey]; exact Int.ofNat_nonneg _
    · rw [ey]; exact Int.ofNat_lt.2 hyl
    · rw [sample_index_eq w h y x fh fw hx (by omega) hy (by omega) hfh hfw, ex, ey,
        Int.toNat_ofNat, Int.toNat_ofNat]
    · exact sample_index_lt w h y x fh fw hx (by omega) hy (by omega) hfh hfw
  · intro T image w h i state _ hh hz hi
    have hs := slice_start T image w h i hi hh
    have he := slice_start_add_size T image w h i hi hh
    have hle := slice_end_le T h i hi
    have hw' : (slice_parameter T image w h i).w = w := rfl
    have hzero : (slice_parameter T image w h i).size = 0
        ∨ (slice_parameter T image w h i).w = 0 := by
      rcases hz with hz | hz
      · exact Or.inr hz
      · left
        have : (slice_parameter T image w h i).start + (slice_parameter T image w h i).size
            ≤ 0 := by rw [he]; omega
        omega
    have hmul : ((slice_parameter T image w h i).start + (slice_parameter T image w h i).size)
        * (slice_parameter T image w h i).w = 0 := by
      rcases hz with hz | hz
      · rw [hw', hz, Nat.mul_zero]
      · rw [he]
        have : slice_end T h i = 0 := by omega
        rw [this, Nat.zero_mul]
    exact empty_slice_untouched _ state hzero (by rw [he]; omega) (by rw [hmul]; decide)

/-- Witness for C15: pixel `(0, 1)` of a 3 by 2 image with the kernel offset
`(-1, -1)`, and the first of four workers on an image of width 0. -/
theorem wrapped_coordinates_in_range_witness :
    (1 ≤ 3 ∧ 3 < 2 ^ 31 ∧ 1 ≤ 2 ∧ 2 < 2 ^ 31 ∧ 0 < 3 ∧ 1 < 2 ∧ 0 < 3 ∧ 0 < 3
      ∧ x_coordinate 0 0 3 = (((0 + 0 + 3 - 1) % 3 : Nat) : Int)
      ∧ y_coordinate 1 0 2 = (((1 + 0 + 2 - 1) % 2 : Nat) : Int)
      ∧ 0 ≤ x_coordinate 0 0 3 ∧ x_coordinate 0 0 3 < ((3 : Nat) : Int)
      ∧ 0 ≤ y_coordinate 1 0 2 ∧ y_coordinate 1 0 2 < ((2 : Nat) : Int)
      ∧ sample_index 3 2 1 0 0 0 = (y_coordinate 1 0 2).toNat * 3 + (x_coordinate 0 0 3).toNat
      ∧ sample_index 3 2 1 0 0 0 < 3 * 2)
    ∧ (1 ≤ 4 ∧ 7 < 2 ^ 64 ∧ ((0 : Nat) = 0 ∨ 7 = 0) ∧ 0 < 4
      ∧ compute_laplacian_threadfn_traced (slice_parameter 4 black_image 0 7 0)
          (black_image, []) = (black_image, [])) :=
  ⟨⟨by decide, by decide, by decide, by decide, by decide, by decide, by decide, by decide,
      wrapped_coordinates_in_range.1 3 2 0 1 0 0 (by decide) (by decide) (by decide)
        (by decide) (by decide) (by decide) (by decide) (by decide)⟩,
    ⟨by decide, by decide, Or.inl rfl, by decide,
      wrapped_coordinates_in_range.2 4 black_image 0 7 0 (black_image, []) (by decide)
        (by decide) (Or.inl rfl) (by decide)⟩⟩

/-- C16: a worker run on the slice `[start, start + size)` of an image (its
rows within the height, `w * h` elements addressable) assigns exactly the
elements `y * w + x` of the result with `start ≤ y < start + size` and `x < w`,
each exactly once and all of them inside the result buffer, and leaves every
other element of the result unchanged; it only reads the source image, which is
another object.  Hence over the slices that `apply_filters` computes, each
element of the result is assigned by exactly one worker, exactly once. -/
theorem worker_writes_own_rows (p : parameter) (result : PixelBuffer) (T : Nat)
    (image : PixelBuffer) (w h : Nat)
    (hrows : p.start + p.size ≤ p.h) (hph : p.h < 2 ^ 64) (hpwh : p.w * p.h < 2 ^ 64)
    (hT : 1 ≤ T) (hh : h < 2 ^ 64) (hwh : w * h < 2 ^ 64) :
    (compute_laplacian_threadfn_traced p (result, [])).1 = compute_laplacian_threadfn p result
    ∧ (compute_laplacian_threadfn_traced p (result, [])).2 = thread_writes p
    ∧ (∀ j, j ∈ thread_writes p ↔
        ∃ y x, p.start ≤ y ∧ y < p.start + p.size ∧ x < p.w ∧ j = y * p.w + x)
    ∧ (∀ j, j ∈ thread_writes p → (thread_writes p).count j = 1 ∧ j < p.w * p.h)
    ∧ (∀ j, j ∉ thread_writes p → compute_laplacian_threadfn p result j = result j)
    ∧ (∀ j, j < w * h →
        ∃! i, i < T ∧ j ∈ thread_writes (slice_parameter T image w h i))
    ∧ (∀ i j, i < T → j ∈ thread_writes (slice_parameter T image w h i) →
        (thread_writes (slice_parameter T image w h i)).count j = 1 ∧ j < w * h) := by
  have hmulle : (p.start + p.size) * p.w ≤ p.h * p.w := Nat.mul_le_mul_right _ hrows
  have hcomm : p.h * p.w = p.w * p.h := Nat.mul_comm _ _
  have h1 : p.start + p.size < 2 ^ 64 := by omega
  have h2 : (p.start + p.size) * p.w ≤ 2 ^ 64 := by omega
  have hw := thread_writes_eq p h1 h2
  have ht := traced_thread p result [] h1 h2
  refine ⟨?_, ?_, ?_, ?_, ?_, ?_, ?_⟩
  · rw [ht]
  · rw [ht, hw]; simp
  · intro j
    rw [hw]
    exact mem_range_iff_row_column p.start p.size p.w j
  · intro j hj
    rw [hw] at hj ⊢
    refine ⟨count_range_eq_one _ _ j hj, ?_⟩
    rw [List.mem_range'_1, ← Nat.add_mul] at hj
    omega
  · intro j hj
    rw [hw, List.mem_range'_1, ← Nat.add_mul] at hj
    rw [thread_pointwise p result h1 h2 j, if_neg hj]
  · intro j hj
    obtain ⟨i, hi, hin⟩ := (covered_iff T w h j hT).2 hj
    refine ⟨i, ⟨hi, (mem_slice_writes_iff T image w h i j hi hh hwh).2 hin⟩, ?_⟩
    rintro k ⟨hk, hkin⟩
    exact in_slice_unique T w h k i j hk hi
      ((mem_slice_writes_iff T image w h k j hk hh hwh).1 hkin) hin
  · intro i j hi hj
    have hin := (mem_slice_writes_iff T image w h i j hi hh hwh).1 hj
    refine ⟨?_, (covered_iff T w h j hT).1 ⟨i, hi, hin⟩⟩
    rw [slice_writes T image w h i hi hh hwh] at hj ⊢
    exact count_range_eq_one _ _ j hj

/-- Witness for C16: a worker on rows 1 and 2 of a 2 by 5 image, and the four
workers of `apply_filters` on such an image. -/
theorem worker_writes_own_rows_witness :
    two_rows_parameter.start + two_rows_parameter.size ≤ two_rows_parameter.h
    ∧ two_rows_parameter.h < 2 ^ 64
    ∧ two_rows_parameter.w * two_rows_parameter.h < 2 ^ 64
    ∧ 1 ≤ 4 ∧ 5 < 2 ^ 64 ∧ 2 * 5 < 2 ^ 64
    ∧ (compute_laplacian_threadfn_traced two_rows_parameter (black_image, [])).1
        = compute_laplacian_threadfn two_rows_parameter black_image
    ∧ (compute_laplacian_threadfn_traced two_rows_parameter (black_image, [])).2
        = thread_writes two_rows_parameter
    ∧ (∀ j, j ∈ thread_writes two_rows_parameter ↔
        ∃ y x, two_rows_parameter.start ≤ y
          ∧ y < two_rows_parameter.start + two_rows_parameter.size
          ∧ x < two_rows_parameter.w ∧ j = y * two_rows_parameter.w + x)
    ∧ (∀ j, j ∈ thread_writes two_rows_parameter →
        (thread_writes two_rows_parameter).count j = 1
        ∧ j < two_rows_parameter.w * two_rows_parameter.h)
    ∧ (∀ j, j ∉ thread_writes two_rows_parameter →
        compute_laplacian_threadfn two_rows_parameter black_image j = black_image j)
    ∧ (∀ j, j < 2 * 5 →
        ∃! i, i < 4 ∧ j ∈ thread_writes (slice_parameter 4 black_image 2 5 i))
    ∧ (∀ i j, i < 4 → j ∈ thread_writes (slice_parameter 4 black_image 2 5 i) →
        (thread_writes (slice_parameter 4 black_image 2 5 i)).count j = 1 ∧ j < 2 * 5) :=
  ⟨by decide, by decide, by decide, by decide, by decide, by decide,
    worker_writes_own_rows two_rows_parameter black_image 4 black_image 2 5
      (by decide) (by decide) (by decide) (by decide) (by decide) (by decide)⟩

theorem index_eq_iff_row_column (w j px py : Nat) (hpx : px < w) :
    j = py * w + px ↔ j / w = py ∧ j % w = px := by
  have hw : 0 < w := by omega
  constructor
  · intro e
    subst e
    constructor
    · rw [Nat.add_comm, Nat.add_mul_div_right _ _ hw, Nat.div_eq_of_lt hpx]; simp
    · rw [Nat.add_comm, Nat.add_mul_mod_self_right, Nat.mod_eq_of_lt hpx]
  · rintro ⟨e1, e2⟩
    rw [← e1, ← e2, Nat.mul_comm]
    exact (Nat.div_add_mod j w).symm

theorem stored_single_pixel_channel (n v : Nat) (A B : Prop) [Decidable A] [Decidable B]
    (h : ((n : Nat) : Int)
      = clamp_0_255 (if A then 8 * ((v : Nat) : Int) else if B then -((v : Nat) : Int) else 0)) :
    n = if A then min 255 (8 * v) else 0 := by
  by_cases a : A
  · rw [if_pos a] at h ⊢
    exact clamp_of_eight_times v n h
  · rw [if_neg a] at h ⊢
    by_cases b : B
    · rw [if_pos b, clamp_of_negated] at h
      omega
    · rw [if_neg b, clamp_0_255_zero] at h
      omega

/-- Where no wrapped coordinate is changed by its conversion to `int`, a single
bright pixel is filtered as the kernel says: for every image of width
`3 ≤ w ≤ 2 ^ 31` and height `3 ≤ h ≤ 2 ^ 31` that is black except for one pixel
`(px, py)` whose channels are `(r, g, b)`, the result holds
`(min 255 (8 r), min 255 (8 g), min 255 (8 b))` at that pixel's position and
`(0, 0, 0)` at every other position; at each of its eight wrapped neighbours
the raw sums are `-r, -g, -b`. -/
theorem single_pixel_image_result (image result : PixelBuffer) (w h px py : Nat) (c : PPMPixel)
    (hw3 : 3 ≤ w) (hw : w ≤ 2 ^ 31) (hh3 : 3 ≤ h) (hh : h ≤ 2 ^ 31)
    (hpx : px < w) (hpy : py < h)
    (hs : ∀ i, i < w * h → image i = if i = py * w + px then c else ⟨0, 0, 0⟩) :
    (∀ j, j < w * h →
      (apply_filters image w h result j).r.val
          = (if j = py * w + px then min 255 (8 * c.r.val) else 0)
      ∧ (apply_filters image w h result j).g.val
          = (if j = py * w + px then min 255 (8 * c.g.val) else 0)
      ∧ (apply_filters image w h result j).b.val
          = (if j = py * w + px then min 255 (8 * c.b.val) else 0))
    ∧ (∀ x y, x < w → y < h → ¬(y = py ∧ x = px) →
        wrap_adjacent h y py → wrap_adjacent w x px →
        accumulate image w h y x
          = (-((c.r.val : Nat) : Int), -((c.g.val : Nat) : Int), -((c.b.val : Nat) : Int))) := by
  have resp : ∀ (channel : PPMPixel → UChar), channel ⟨0, 0, 0⟩ = 0 → ∀ y x, y < h → x < w →
      channel_response channel image w h y x
        = if y = py ∧ x = px then 8 * (((channel c).val : Nat) : Int)
          else if wrap_adjacent h y py ∧ wrap_adjacent w x px
            then -(((channel c).val : Nat) : Int) else 0 :=
    fun channel hch y x hy hx =>
      channel_response_single_pixel channel hch image w h px py c y x hw3 hw hh3 hh
        hpx hpy hx hy hs
  have hwh : w * h ≤ 2 ^ 31 * 2 ^ 31 := Nat.mul_le_mul hw hh
  have h62 : (2 : Nat) ^ 31 * 2 ^ 31 = 2 ^ 62 := by norm_num
  refine ⟨?_, ?_⟩
  · intro j hj
    obtain ⟨hx, hy⟩ := div_mod_in_image w h j hj
    rw [apply_filters_result image w h (by omega) (by omega) result j, if_pos hj]
    unfold filtered_at
    obtain ⟨cr, cg, cb⟩ := filtered_pixel_channels image w h (j / w) (j % w)
    rw [resp _ rfl _ _ hy hx] at cr cg cb
    have e : (j = py * w + px) ↔ (j / w = py ∧ j % w = px) :=
      index_eq_iff_row_column w j px py hpx
    simp only [e]
    exact ⟨stored_single_pixel_channel _ _ _ _ cr, stored_single_pixel_channel _ _ _ _ cg,
      stored_single_pixel_channel _ _ _ _ cb⟩
  · intro x y hx hy hne hay hax
    rw [accumulate_eq, resp _ rfl y x hy hx, resp _ rfl y x hy hx, resp _ rfl y x hy hx]
    simp only [if_neg hne, if_pos (And.intro hay hax)]

/-- The 5 by 5 black image with a white pixel in its centre. -/
theorem single_pixel_image_result_witness :
    3 ≤ 5 ∧ 5 ≤ 2 ^ 31 ∧ 3 ≤ 5 ∧ 5 ≤ 2 ^ 31 ∧ 2 < 5 ∧ 2 < 5
    ∧ (∀ i, i < 5 * 5 →
        single_bright_image i = if i = 2 * 5 + 2 then ⟨255, 255, 255⟩ else ⟨0, 0, 0⟩)
    ∧ (∀ j, j < 5 * 5 →
      (apply_filters single_bright_image 5 5 black_image j).r.val
          = (if j = 2 * 5 + 2 then min 255 (8 * (⟨255, 255, 255⟩ : PPMPixel).r.val) else 0)
      ∧ (apply_filters single_bright_image 5 5 black_image j).g.val
          = (if j = 2 * 5 + 2 then min 255 (8 * (⟨255, 255, 255⟩ : PPMPixel).g.val) else 0)
      ∧ (apply_filters single_bright_image 5 5 black_image j).b.val
          = (if j = 2 * 5 + 2 then min 255 (8 * (⟨255, 255, 255⟩ : PPMPixel).b.val) else 0))
    ∧ (∀ x y, x < 5 → y < 5 → ¬(y = 2 ∧ x = 2) →
        wrap_adjacent 5 y 2 → wrap_adjacent 5 x 2 →
        accumulate single_bright_image 5 5 y x
          = (-(((⟨255, 255, 255⟩ : PPMPixel).r.val : Nat) : Int),
             -(((⟨255, 255, 255⟩ : PPMPixel).g.val : Nat) : Int),
             -(((⟨255, 255, 255⟩ : PPMPixel).b.val : Nat) : Int))) :=
  ⟨by decide, by decide, by decide, by decide, by decide, by decide, fun _ _ => rfl,
    single_pixel_image_result single_bright_image black_image 5 5 2 2 ⟨255, 255, 255⟩
      (by decide) (by decide) (by decide) (by decide) (by decide) (by decide)
      (fun _ _ => rfl)⟩

set_option maxRecDepth 100000 in
/-- C17, a defect of the code: the wrapped column is computed in
`unsigned long` and then stored in the `int x_coordinate`, which turns the
column `2 ^ 31` into `-2 ^ 31`.  On the image of width `2 ^ 31 + 1` and height
`4` that is black except for the white pixel in row 2, column `2 ^ 31`, the
code stores `(0, 0, 0)` at that pixel's position, where the result must hold
`min 255 (8 * 255) = 255` in each channel. -/
theorem single_pixel_wide_image_counterexample :
    3 ≤ 2147483649 ∧ 3 ≤ 4 ∧ 2147483648 < 2147483649 ∧ 2 < 4
    ∧ (∀ i, i < 2147483649 * 4 →
        wide_image i = if i = 2 * 2147483649 + 2147483648 then ⟨255, 255, 255⟩ else ⟨0, 0, 0⟩)
    ∧ apply_filters wide_image 2147483649 4 black_image (2 * 2147483649 + 2147483648)
        = ⟨0, 0, 0⟩
    ∧ min 255 (8 * (⟨255, 255, 255⟩ : PPMPixel).r.val) = 255 := by
  refine ⟨by decide, by decide, by decide, by decide, fun _ _ => rfl, ?_, by decide⟩
  rw [apply_filters_result wide_image 2147483649 4 (by norm_num) (by norm_num) black_image,
    if_pos (by norm_num)]
  decide

/-! ## The accumulators never overflow -/

theorem for_loop_nine {σ : Type} (body : Nat → σ → σ) (s : σ) :
    for_loop 0 9 body s
      = body 8 (body 7 (body 6 (body 5 (body 4 (body 3 (body 2 (body 1 (body 0 s)))))))) := rfl

theorem accumulate_eq_upto (image : PixelBuffer) (w h y x : Nat) :
    accumulate image w h y x = accumulate_upto image w h y x 9 := by
  unfold accumulate accumulate_upto
  rw [show FILTER_HEIGHT = 3 from rfl, show FILTER_WIDTH = 3 from rfl]
  simp only [for_loop_three, for_loop_nine]
  rfl

theorem int_mul_kernel_exact (a : UChar) (fh fw : Fin 3) :
    int_mul (((a.val : Nat) : Int)) (laplacian_at fh.val fw.val)
        = ((a.val : Nat) : Int) * laplacian_at fh.val fw.val
    ∧ -255 ≤ ((a.val : Nat) : Int) * laplacian_at fh.val fw.val
    ∧ ((a.val : Nat) : Int) * laplacian_at fh.val fw.val ≤ 2040 := by
  have ha := a.isLt
  fin_cases fh <;> fin_cases fw <;>
    simp only [show laplacian_at 0 0 = -1 from rfl, show laplacian_at 0 1 = -1 from rfl,
      show laplacian_at 0 2 = -1 from rfl, show laplacian_at 1 0 = -1 from rfl,
      show laplacian_at 1 1 = 8 from rfl, show laplacian_at 1 2 = -1 from rfl,
      show laplacian_at 2 0 = -1 from rfl, show laplacian_at 2 1 = -1 from rfl,
      show laplacian_at 2 2 = -1 from rfl, Fin.zero_eta, Fin.mk_one, Fin.reduceFinMk,
      Fin.val_zero, Fin.val_one, Fin.val_two, Fin.isValue] <;>
    unfold int_mul to_int <;> omega

theorem sample_channels_lt (image : PixelBuffer) (i : Nat) :
    (image i).r.val < 256 ∧ (image i).g.val < 256 ∧ (image i).b.val < 256 :=
  ⟨(image i).r.isLt, (image i).g.isLt, (image i).b.isLt⟩

theorem for_loop_zero {σ : Type} (body : Nat → σ → σ) (s : σ) :
    for_loop 0 0 body s = s := rfl

theorem for_loop_one {σ : Type} (body : Nat → σ → σ) (s : σ) :
    for_loop 0 1 body s = body 0 s := rfl

theorem for_loop_two {σ : Type} (body : Nat → σ → σ) (s : σ) :
    for_loop 0 2 body s = body 1 (body 0 s) := rfl

theorem for_loop_four {σ : Type} (body : Nat → σ → σ) (s : σ) :
    for_loop 0 4 body s = body 3 (body 2 (body 1 (body 0 s))) := rfl

theorem for_loop_five {σ : Type} (body : Nat → σ → σ) (s : σ) :
    for_loop 0 5 body s = body 4 (body 3 (body 2 (body 1 (body 0 s)))) := rfl

theorem for_loop_six {σ : Type} (body : Nat → σ → σ) (s : σ) :
    for_loop 0 6 body s = body 5 (body 4 (body 3 (body 2 (body 1 (body 0 s))))) := rfl

theorem for_loop_seven {σ : Type} (body : Nat → σ → σ) (s : σ) :
    for_loop 0 7 body s = body 6 (body 5 (body 4 (body 3 (body 2 (body 1 (body 0 s)))))) := rfl

theorem for_loop_eight {σ : Type} (body : Nat → σ → σ) (s : σ) :
    for_loop 0 8 body s = body 7 (body 6 (body 5 (body 4 (body 3 (body 2 (body 1 (body 0 s))))))) := rfl

theorem for_loop_succ {σ : Type} (n : Nat) (body : Nat → σ → σ) (s : σ) :
    for_loop 0 (n + 1) body s = body n (for_loop 0 n body s) := by
  unfold for_loop
  rw [Nat.sub_zero, Nat.sub_zero, List.range'_concat, List.foldl_append]
  simp

theorem laplacian_at_values (i j : Nat) :
    laplacian_at i j = -1 ∨ laplacian_at i j = 8 ∨ laplacian_at i j = 0 := by
  unfold laplacian_at laplacian
  rcases i with _ | _ | _ | i <;> rcases j with _ | _ | _ | j <;> simp

theorem multiply_add_exact (r : Int) (a : Nat) (k : Int) (ha : a < 256)
    (hk : k = -1 ∨ k = 8 ∨ k = 0) (h1 : -20000 ≤ r) (h2 : r ≤ 20000) :
    int_add r (int_mul ((a : Nat) : Int) k) = r + ((a : Nat) : Int) * k
    ∧ r - 2040 ≤ r + ((a : Nat) : Int) * k ∧ r + ((a : Nat) : Int) * k ≤ r + 2040 := by
  unfold int_add int_mul to_int
  rcases hk with hk | hk | hk <;> subst hk <;> omega

theorem upto_exact (image : PixelBuffer) (w h y x n : Nat) (hn : n ≤ 9) :
    accumulate_upto image w h y x n = exact_upto image w h y x n
    ∧ -2040 * (n : Int) ≤ (exact_upto image w h y x n).1
    ∧ (exact_upto image w h y x n).1 ≤ 2040 * (n : Int)
    ∧ -2040 * (n : Int) ≤ (exact_upto image w h y x n).2.1
    ∧ (exact_upto image w h y x n).2.1 ≤ 2040 * (n : Int)
    ∧ -2040 * (n : Int) ≤ (exact_upto image w h y x n).2.2
    ∧ (exact_upto image w h y x n).2.2 ≤ 2040 * (n : Int) := by
  induction n with
  | zero =>
    have e0 : exact_upto image w h y x 0 = (0, 0, 0) := rfl
    rw [e0]
    refine ⟨rfl, ?_, ?_, ?_, ?_, ?_, ?_⟩ <;> simp
  | succ n ih =>
    obtain ⟨e, r1, r2, g1, g2, b1, b2⟩ := ih (by omega)
    have hm : accumulate_upto image w h y x (n + 1)
        = accumulate_step image w h y x (n / FILTER_WIDTH) (n % FILTER_WIDTH)
            (accumulate_upto image w h y x n) := for_loop_succ n _ _
    have hx : exact_upto image w h y x (n + 1)
        = exact_step image w h y x (n / FILTER_WIDTH) (n % FILTER_WIDTH)
            (exact_upto image w h y x n) := for_loop_succ n _ _
    rw [hm, hx, e]
    generalize exact_upto image w h y x n = acc at *
    obtain ⟨red, green, blue⟩ := acc
    have hk := laplacian_at_values (n / FILTER_WIDTH) (n % FILTER_WIDTH)
    have hb := sample_channels_lt image
      (sample_index w h y x (n / FILTER_WIDTH) (n % FILTER_WIDTH))
    simp only at r1 r2 g1 g2 b1 b2
    obtain ⟨er, lr, ur⟩ := multiply_add_exact red _ _ hb.1 hk (by omega) (by omega)
    obtain ⟨eg, lg, ug⟩ := multiply_add_exact green _ _ hb.2.1 hk (by omega) (by omega)
    obtain ⟨eb, lb, ub⟩ := multiply_add_exact blue _ _ hb.2.2 hk (by omega) (by omega)
    unfold accumulate_step exact_step
    simp only [er, eg, eb]
    push_cast
    refine ⟨trivial, ?_, ?_, ?_, ?_, ?_, ?_⟩ <;> omega

theorem laplacian_at_step (n : Nat) (hn : n ≤ 8) :
    laplacian_at (n / FILTER_WIDTH) (n % FILTER_WIDTH) = if n = 4 then 8 else -1 := by
  interval_cases n <;> rfl

theorem tight_step (n : Nat) (c : Int) (a : Nat) (k : Int) (hn : n ≤ 8)
    (hk : k = if n = 4 then 8 else -1) (ha : a < 256)
    (h4 : n ≤ 4 → -255 * (n : Int) ≤ c ∧ c ≤ 0)
    (h5 : 5 ≤ n → -255 * ((n : Int) - 1) ≤ c ∧ c ≤ 2040) :
    (n + 1 ≤ 4 → -255 * ((n + 1 : Nat) : Int) ≤ c + ((a : Nat) : Int) * k
        ∧ c + ((a : Nat) : Int) * k ≤ 0)
    ∧ (5 ≤ n + 1 → -255 * (((n + 1 : Nat) : Int) - 1) ≤ c + ((a : Nat) : Int) * k
        ∧ c + ((a : Nat) : Int) * k ≤ 2040) := by
  by_cases e : n = 4
  · subst e
    rw [if_pos rfl] at hk
    subst hk
    have := h4 (by decide)
    constructor
    · intro h; omega
    · intro _; push_cast; omega
  · rw [if_neg e] at hk
    subst hk
    by_cases l : n ≤ 4
    · have := h4 l
      constructor
      · intro _; push_cast; omega
      · intro h; omega
    · have := h5 (by omega)
      constructor
      · intro h; omega
      · intro _; push_cast; omega

theorem upto_tight (image : PixelBuffer) (w h y x n : Nat) (hn : n ≤ 9) :
    ((n ≤ 4 → -255 * (n : Int) ≤ (exact_upto image w h y x n).1
        ∧ (exact_upto image w h y x n).1 ≤ 0)
      ∧ (5 ≤ n → -255 * ((n : Int) - 1) ≤ (exact_upto image w h y x n).1
        ∧ (exact_upto image w h y x n).1 ≤ 2040))
    ∧ ((n ≤ 4 → -255 * (n : Int) ≤ (exact_upto image w h y x n).2.1
        ∧ (exact_upto image w h y x n).2.1 ≤ 0)
      ∧ (5 ≤ n → -255 * ((n : Int) - 1) ≤ (exact_upto image w h y x n).2.1
        ∧ (exact_upto image w h y x n).2.1 ≤ 2040))
    ∧ ((n ≤ 4 → -255 * (n : Int) ≤ (exact_upto image w h y x n).2.2
        ∧ (exact_upto image w h y x n).2.2 ≤ 0)
      ∧ (5 ≤ n → -255 * ((n : Int) - 1) ≤ (exact_upto image w h y x n).2.2
        ∧ (exact_upto image w h y x n).2.2 ≤ 2040)) := by
  induction n with
  | zero =>
    have e0 : exact_upto image w h y x 0 = (0, 0, 0) := rfl
    rw [e0]
    simp
  | succ n ih =>
    obtain ⟨⟨r4, r5⟩, ⟨g4, g5⟩, ⟨b4, b5⟩⟩ := ih (by omega)
    have hx : exact_upto image w h y x (n + 1)
        = exact_step image w h y x (n / FILTER_WIDTH) (n % FILTER_WIDTH)
            (exact_upto image w h y x n) := for_loop_succ n _ _
    have hk := laplacian_at_step n (by omega)
    have hb := sample_channels_lt image
      (sample_index w h y x (n / FILTER_WIDTH) (n % FILTER_WIDTH))
    rw [hx]
    unfold exact_step
    exact ⟨tight_step n _ _ _ (by omega) hk hb.1 r4 r5,
      tight_step n _ _ _ (by omega) hk hb.2.1 g4 g5,
      tight_step n _ _ _ (by omega) hk hb.2.2 b4 b5⟩

theorem upto_in_range (image : PixelBuffer) (w h y x n : Nat) (hn : n ≤ 9) :
    (-2040 ≤ (exact_upto image w h y x n).1 ∧ (exact_upto image w h y x n).1 ≤ 2040)
    ∧ (-2040 ≤ (exact_upto image w h y x n).2.1
      ∧ (exact_upto image w h y x n).2.1 ≤ 2040)
    ∧ (-2040 ≤ (exact_upto image w h y x n).2.2
      ∧ (exact_upto image w h y x n).2.2 ≤ 2040) := by
  obtain ⟨⟨r4, r5⟩, ⟨g4, g5⟩, ⟨b4, b5⟩⟩ := upto_tight image w h y x n hn
  by_cases l : n ≤ 4
  · have r := r4 l
    have g := g4 l
    have b := b4 l
    refine ⟨⟨?_, ?_⟩, ⟨?_, ?_⟩, ⟨?_, ?_⟩⟩ <;> omega
  · have r := r5 (by omega)
    have g := g5 (by omega)
    have b := b5 (by omega)
    refine ⟨⟨?_, ?_⟩, ⟨?_, ?_⟩, ⟨?_, ?_⟩⟩ <;> omega

/-- C18: for every image and every pixel, the `int` accumulators `red`, `green`
and `blue` hold, after each of the nine multiply-and-add steps, the exact
integer sum of the products so far, and that sum lies in `-2040 .. 2040`; each
product is exact as well.  No 32-bit operation overflows, and the values that
are clamped are the exact sums. -/
theorem accumulators_never_overflow (image : PixelBuffer) (w h y x : Nat) :
    accumulate image w h y x = exact_upto image w h y x 9
    ∧ (∀ n : Fin 10,
        accumulate_upto image w h y x n.val = exact_upto image w h y x n.val
        ∧ (-2040 ≤ (exact_upto image w h y x n.val).1
          ∧ (exact_upto image w h y x n.val).1 ≤ 2040)
        ∧ (-2040 ≤ (exact_upto image w h y x n.val).2.1
          ∧ (exact_upto image w h y x n.val).2.1 ≤ 2040)
        ∧ (-2040 ≤ (exact_upto image w h y x n.val).2.2
          ∧ (exact_upto image w h y x n.val).2.2 ≤ 2040))
    ∧ (∀ (a : UChar) (fh fw : Fin 3),
        int_mul (((a.val : Nat) : Int)) (laplacian_at fh.val fw.val)
            = ((a.val : Nat) : Int) * laplacian_at fh.val fw.val
        ∧ -255 ≤ ((a.val : Nat) : Int) * laplacian_at fh.val fw.val
        ∧ ((a.val : Nat) : Int) * laplacian_at fh.val fw.val ≤ 2040) := by
  refine ⟨?_, ?_, int_mul_kernel_exact⟩
  · rw [accumulate_eq_upto]
    exact (upto_exact image w h y x 9 (by decide)).1
  · intro n
    have hn : n.val ≤ 9 := by have := n.isLt; omega
    exact ⟨(upto_exact image w h y x n.val hn).1, upto_in_range image w h y x n.val hn⟩

/-! ## The comment loop of `read_image` -/

theorem skip_comment_line_without_newline (fuel : Nat) (file : FILE)
    (h : ∀ c ∈ file, c ≠ (10 : UChar)) : skip_comment_line fuel file = none := by
  induction fuel generalizing file with
  | zero => rfl
  | succ n ih =>
    unfold skip_comment_line
    cases file with
    | nil =>
      have e : (fgetc ([] : FILE)).1 ≠ 10 := by decide
      rw [if_pos e]
      exact ih _ (by intro c hc; cases hc)
    | cons c rest =>
      have hc : c ≠ 10 := h c (List.mem_cons_self _ _)
      have e : (fgetc (c :: rest)).1 ≠ 10 := by
        show ((c.val : Nat) : Int) ≠ 10
        intro hcontra
        apply hc
        apply Fin.ext
        show c.val = 10
        omega
      rw [if_pos e]
      exact ih rest (fun d hd => h d (List.mem_cons_of_mem _ hd))

set_option maxRecDepth 100000 in
/-- C19 (the code at the failing input): the file is `P6`, a newline and the
comment `# no newline` that the end of the file cuts short.  Whatever the fuel,
`read_image` has not returned when the fuel is used up: the loop
`while (fgetc(file) != '\n')` never ends, `fgetc` returning `EOF` for ever. -/
theorem read_image_unterminated_comment :
    unterminated_comment_file
        = [80, 54, 10, 35, 32, 110, 111, 32, 110, 101, 119, 108, 105, 110, 101]
    ∧ (∀ fuel, skip_comment_line fuel [] = none)
    ∧ ∀ fuel, read_image fuel (some unterminated_comment_file) (fun _ => true) = none := by
  refine ⟨by decide, fun fuel => skip_comment_line_without_newline fuel [] (by simp), ?_⟩
  intro fuel
  cases fuel with
  | zero => rfl
  | succ n =>
    have hline : skip_comment_line n
        [32, 110, 111, 32, 110, 101, 119, 108, 105, 110, 101] = none :=
      skip_comment_line_without_newline n _ (by decide)
    have hskip : skip_comments (n + 1)
        [35, 32, 110, 111, 32, 110, 101, 119, 108, 105, 110, 101] = none := by
      unfold skip_comments
      simp only [fgetc]
      rw [if_pos (by decide), hline]
    have hscan : fscanf_s unterminated_comment_file
        = (Scanned.assigned [80, 54],
           [35, 32, 110, 111, 32, 110, 101, 119, 108, 105, 110, 101]) := by decide
    unfold read_image
    simp only [hscan]
    rw [if_neg (by decide), if_neg (by decide), hskip]

/-! ## The bytes that `write_image` writes -/

theorem toDigitsCore_eq_digits (fuel n : Nat) (ds : List Char) (h0 : 0 < n) (hf : n < fuel) :
    Nat.toDigitsCore 10 fuel n ds = (Nat.digits 10 n).reverse.map Nat.digitChar ++ ds := by
  induction fuel generalizing n ds with
  | zero => omega
  | succ f ih =>
    rw [Nat.digits_def' (by decide) h0]
    unfold Nat.toDigitsCore
    by_cases hq : n / 10 = 0
    · simp only [hq, if_true]
      simp
    · simp only [hq, if_false]
      rw [ih (n / 10) _ (by omega) (by omega)]
      simp

theorem toDigits_eq_digits (n : Nat) (h0 : 0 < n) :
    Nat.toDigits 10 n = (Nat.digits 10 n).reverse.map Nat.digitChar := by
  unfold Nat.toDigits
  rw [toDigitsCore_eq_digits (n + 1) n [] h0 (by omega)]
  simp

theorem digitChar_byte (d : Nat) (hd : d < 10) :
    to_uchar ((Nat.digitChar d).toNat : Int) = to_uchar ((48 + d : Nat) : Int) := by
  interval_cases d <;> rfl

theorem print_lu_eq_decimal (n : Nat) : print_lu n = decimal_representation n := by
  unfold print_lu decimal_representation
  by_cases h0 : n = 0
  · subst h0
    rfl
  · rw [if_neg h0, toDigits_eq_digits n (by omega), List.map_map]
    apply List.map_congr_left
    intro d hd
    exact digitChar_byte d (Nat.digits_lt_base (by decide) (List.mem_reverse.1 hd))

theorem bytes_of_pixels_append (l : List PPMPixel) (p : PPMPixel) :
    bytes_of_pixels (l ++ [p]) = bytes_of_pixels l ++ [p.r, p.g, p.b] := by
  induction l with
  | nil => rfl
  | cons q l ih =>
    show q.r :: q.g :: q.b :: bytes_of_pixels (l ++ [p]) = _
    rw [ih]
    rfl

theorem bytes_of_pixels_range (image : PixelBuffer) (n : Nat) :
    bytes_of_pixels ((List.range n).map image)
      = (List.range (n * 3)).map (fun j => channel_byte (image (j / 3)) (j % 3)) := by
  induction n with
  | zero => rfl
  | succ n ih =>
    have e : (n + 1) * 3 = n * 3 + 1 + 1 + 1 := by omega
    rw [List.range_succ, List.map_append, List.map_cons, List.map_nil, bytes_of_pixels_append,
      ih, e, List.range_succ, List.range_succ, List.range_succ]
    simp only [List.map_append, List.map_cons, List.map_nil, List.append_assoc,
      List.cons_append, List.nil_append]
    have d0 : n * 3 / 3 = n := by omega
    have d1 : (n * 3 + 1) / 3 = n := by omega
    have d2 : (n * 3 + 1 + 1) / 3 = n := by omega
    have m0 : n * 3 % 3 = 0 := by omega
    have m1 : (n * 3 + 1) % 3 = 1 := by omega
    have m2 : (n * 3 + 1 + 1) % 3 = 2 := by omega
    rw [d0, d1, d2, m0, m1, m2]
    rfl

/-- C12: for every image of width `w` and height `h` (`w * h` elements
addressable), the bytes that `write_image` writes are exactly `P6\n`, the
decimal representation of `w`, one space, the decimal representation of `h`,
`\n`, `255\n`, and then the `w * h * 3` payload bytes in row-major order, red,
green, blue for each pixel; if the file can be created it holds exactly these
bytes when `write_image` returns. -/
theorem write_image_format (env : platform) (image : PixelBuffer) (filename : String)
    (w h : Nat) (files : String → Option (List UChar)) (hwh : w * h < 2 ^ 64)
    (hc : env.can_create filename = true) :
    write_image_bytes image w h
        = [80, 54, 10] ++ decimal_representation w ++ [32] ++ decimal_representation h ++ [10]
          ++ [50, 53, 53, 10] ++ row_major_payload image w h
    ∧ (row_major_payload image w h).length = w * h * 3
    ∧ write_image env image filename w h files
        = outcome.returned (fun name =>
            if name = filename then
              some ([80, 54, 10] ++ decimal_representation w ++ [32] ++ decimal_representation h
                ++ [10] ++ [50, 53, 53, 10] ++ row_major_payload image w h)
            else files name) := by
  have hbytes : write_image_bytes image w h
      = [80, 54, 10] ++ decimal_representation w ++ [32] ++ decimal_representation h ++ [10]
        ++ [50, 53, 53, 10] ++ row_major_payload image w h := by
    unfold write_image_bytes row_major_payload
    rw [ulong_mul_eq w h hwh, bytes_of_pixels_range, print_lu_eq_decimal, print_lu_eq_decimal,
      show ascii "P6\n" = [80, 54, 10] from by decide,
      show ascii " " = [32] from by decide, show ascii "\n" = [10] from by decide,
      show print_d RGB_COMPONENT_COLOR = [50, 53, 53] from by decide]
    simp only [List.append_assoc, List.cons_append, List.nil_append]
  refine ⟨hbytes, ?_, ?_⟩
  · unfold row_major_payload
    rw [List.length_map, List.length_range]
  · unfold write_image
    rw [if_pos hc, hbytes]

/-- Witness for C12: a black image of width 3 and height 2, written to
`laplacian1.ppm`. -/
theorem write_image_format_witness :
    3 * 2 < 2 ^ 64 ∧ generous_platform.can_create "laplacian1.ppm" = true
    ∧ write_image_bytes black_image 3 2
        = [80, 54, 10] ++ decimal_representation 3 ++ [32] ++ decimal_representation 2 ++ [10]
          ++ [50, 53, 53, 10] ++ row_major_payload black_image 3 2
    ∧ (row_major_payload black_image 3 2).length = 3 * 2 * 3
    ∧ write_image generous_platform black_image "laplacian1.ppm" 3 2 two_inputs_state.files
        = outcome.returned (fun name =>
            if name = "laplacian1.ppm" then
              some ([80, 54, 10] ++ decimal_representation 3 ++ [32] ++ decimal_representation 2
                ++ [10] ++ [50, 53, 53, 10] ++ row_major_payload black_image 3 2)
            else two_inputs_state.files name) :=
  ⟨by decide, rfl,
    write_image_format generous_platform black_image "laplacian1.ppm" 3 2
      two_inputs_state.files (by decide) rfl⟩

/-! ## Comment lines after the magic tag -/

theorem skip_comment_line_mono (fuel : Nat) (file r : FILE)
    (h : skip_comment_line fuel file = some r) : skip_comment_line (fuel + 1) file = some r := by
  induction fuel generalizing file with
  | zero => exact absurd h (by simp [skip_comment_line])
  | succ n ih =>
    unfold skip_comment_line at h ⊢
    by_cases c : (fgetc file).1 ≠ 10
    · rw [if_pos c] at h ⊢
      exact ih _ h
    · rw [if_neg c] at h ⊢
      exact h

theorem skip_comments_mono (fuel : Nat) (file : FILE) (r : Int × FILE)
    (h : skip_comments fuel file = some r) : skip_comments (fuel + 1) file = some r := by
  induction fuel generalizing file with
  | zero => exact absurd h (by simp [skip_comments])
  | succ n ih =>
    unfold skip_comments at h ⊢
    by_cases c : (fgetc file).1 = 35
    · rw [if_pos c] at h ⊢
      cases hl : skip_comment_line n (fgetc file).2 with
      | none => rw [hl] at h; exact absurd h (by simp)
      | some s =>
        rw [hl] at h
        rw [skip_comment_line_mono n _ s hl]
        exact ih s h
    · rw [if_neg c] at h ⊢
      exact h

theorem skip_comments_mono_le (fuel fuel' : Nat) (file : FILE) (r : Int × FILE)
    (h : skip_comments fuel file = some r) (hle : fuel ≤ fuel') :
    skip_comments fuel' file = some r := by
  induction fuel' with
  | zero =>
    have : fuel = 0 := by omega
    subst this
    exact h
  | succ n ih =>
    by_cases e : fuel = n + 1
    · subst e; exact h
    · exact skip_comments_mono n file r (ih (by omega))

theorem skip_comment_line_text (text tail : List UChar) (fuel : Nat)
    (ht : ∀ c ∈ text, c ≠ (10 : UChar)) (hf : text.length + 1 ≤ fuel) :
    skip_comment_line fuel (text ++ 10 :: tail) = some tail := by
  induction text generalizing fuel with
  | nil =>
    obtain ⟨n, rfl⟩ : ∃ n, fuel = n + 1 := ⟨fuel - 1, by simp at hf; omega⟩
    rfl
  | cons c text ih =>
    obtain ⟨n, rfl⟩ : ∃ n, fuel = n + 1 := ⟨fuel - 1, by simp at hf; omega⟩
    have hc : c ≠ 10 := ht c (List.mem_cons_self _ _)
    have e : (fgetc (c :: text ++ 10 :: tail)).1 ≠ 10 := by
      show ((c.val : Nat) : Int) ≠ 10
      intro hcontra
      apply hc
      apply Fin.ext
      show c.val = 10
      omega
    unfold skip_comment_line
    rw [if_pos e]
    exact ih n (fun d hd => ht d (List.mem_cons_of_mem _ hd)) (by simp at hf; omega)

theorem skip_comments_comment_line (text tail : List UChar) (fuel : Nat)
    (ht : ∀ c ∈ text, c ≠ (10 : UChar)) (hf : text.length + 1 ≤ fuel) :
    skip_comments (fuel + 1) (comment_line text ++ tail) = skip_comments fuel tail := by
  unfold comment_line
  rw [skip_comments]
  have e : (fgetc ((35 : UChar) :: (text ++ [10]) ++ tail)).1 = 35 := rfl
  rw [if_pos e]
  have e2 : (fgetc ((35 : UChar) :: (text ++ [10]) ++ tail)).2 = text ++ 10 :: tail := by
    show (text ++ [10]) ++ tail = _
    simp
  rw [e2, skip_comment_line_text text tail fuel ht hf]

theorem skip_comments_comment_lines (texts : List (List UChar)) (rest : FILE) (fuel : Nat)
    (r : Int × FILE) (ht : ∀ t ∈ texts, ∀ c ∈ t, c ≠ (10 : UChar))
    (h : skip_comments fuel rest = some r) :
    ∃ fuel0, ∀ fuel', fuel0 ≤ fuel' →
      skip_comments fuel' (comment_lines texts ++ rest) = some r := by
  induction texts with
  | nil =>
    exact ⟨fuel, fun fuel' hle => skip_comments_mono_le fuel fuel' rest r h hle⟩
  | cons t texts ih =>
    obtain ⟨f0, hf0⟩ := ih (fun u hu => ht u (List.mem_cons_of_mem _ hu))
    refine ⟨max f0 (t.length + 1) + 1, ?_⟩
    intro fuel' hle
    obtain ⟨n, rfl⟩ : ∃ n, fuel' = n + 1 := ⟨fuel' - 1, by omega⟩
    have hn1 : f0 ≤ n := by have := Nat.le_max_left f0 (t.length + 1); omega
    have hn2 : t.length + 1 ≤ n := by have := Nat.le_max_right f0 (t.length + 1); omega
    show skip_comments (n + 1) ((comment_line t ++ comment_lines texts) ++ rest) = some r
    rw [List.append_assoc,
      skip_comments_comment_line t _ n (ht t (List.mem_cons_self _ _)) hn2]
    exact hf0 n hn1

theorem fscanf_s_magic_tag (tail : FILE) :
    fscanf_s ([80, 54, 10] ++ tail) = (Scanned.assigned [80, 54], skip_white_space tail) := by
  unfold fscanf_s scan_s skip_white_space
  rfl

theorem read_image_after_tag (fuel fuel' : Nat) (tail tail' : FILE) (can_allocate : Nat → Bool)
    (h : skip_comments fuel (skip_white_space tail) = skip_comments fuel' (skip_white_space tail')) :
    read_image fuel (some ([80, 54, 10] ++ tail)) can_allocate
      = read_image fuel' (some ([80, 54, 10] ++ tail')) can_allocate := by
  unfold read_image
  simp only [fscanf_s_magic_tag, h]

theorem skip_white_space_comment_lines (texts : List (List UChar)) (rest : FILE)
    (hrest : skip_white_space rest = rest) :
    skip_white_space (comment_lines texts ++ rest) = comment_lines texts ++ rest := by
  cases texts with
  | nil => exact hrest
  | cons t texts => rfl

/-- C13: take a file that begins with the magic-tag line `P6\n` and goes on
with a byte that is not white space, as every file of the format does, and let
`read_image` return a result for it.  With any number of comment lines, each a
`#`, a text without newline and a newline, inserted directly after the
magic-tag line, `read_image` returns the same result, whatever the fuel from
some bound on: the same width, height and pixels. -/
theorem comment_lines_are_skipped (texts : List (List UChar)) (rest : FILE)
    (can_allocate : Nat → Bool) (fuel : Nat) (r : read_result)
    (htexts : ∀ t ∈ texts, ∀ c ∈ t, c ≠ (10 : UChar))
    (hrest : skip_white_space rest = rest)
    (hfile : read_image fuel (some (ascii "P6\n" ++ rest)) can_allocate = some r) :
    ∃ fuel0, ∀ fuel', fuel0 ≤ fuel' →
      read_image fuel' (some (ascii "P6\n" ++ (comment_lines texts ++ rest))) can_allocate
        = some r := by
  have etag : ascii "P6\n" = [80, 54, 10] := by decide
  rw [etag] at hfile ⊢
  cases hs : skip_comments fuel rest with
  | none =>
    have : read_image fuel (some ([80, 54, 10] ++ rest)) can_allocate = none := by
      unfold read_image
      simp only [fscanf_s_magic_tag, hrest, hs]
      rfl
    rw [this] at hfile
    exact absurd hfile (by simp)
  | some s =>
    obtain ⟨f0, hf0⟩ := skip_comments_comment_lines texts rest fuel s htexts hs
    refine ⟨f0, fun fuel' hle => ?_⟩
    rw [← hfile]
    apply read_image_after_tag
    rw [skip_white_space_comment_lines texts rest hrest, hrest, hf0 fuel' hle, hs]


set_option maxRecDepth 100000 in
theorem comment_lines_are_skipped_witness :
    (∀ t ∈ [ascii " made by hand", []], ∀ c ∈ t, c ≠ (10 : UChar))
    ∧ skip_white_space (ascii "1 1\n255\n" ++ [1, 2, 3]) = ascii "1 1\n255\n" ++ [1, 2, 3]
    ∧ read_image 1 (some (ascii "P6\n" ++ (ascii "1 1\n255\n" ++ [1, 2, 3]))) (fun _ => true)
        = some (read_result.image [⟨1, 2, 3⟩] 1 1)
    ∧ ∃ fuel0, ∀ fuel', fuel0 ≤ fuel' →
        read_image fuel'
            (some (ascii "P6\n" ++ (comment_lines [ascii " made by hand", []]
              ++ (ascii "1 1\n255\n" ++ [1, 2, 3]))))
            (fun _ => true)
          = some (read_result.image [⟨1, 2, 3⟩] 1 1) :=
  ⟨by decide, by decide, by rfl,
    comment_lines_are_skipped [ascii " made by hand", []] (ascii "1 1\n255\n" ++ [1, 2, 3])
      (fun _ => true) 1 (read_result.image [⟨1, 2, 3⟩] 1 1) (by decide) (by decide) (by rfl)⟩

set_option maxRecDepth 100000 in
/-- The byte after the magic-tag line matters: after a blank line a comment is
read only if no comment line stands before the blank line. -/
theorem comment_after_blank_line :
    (∀ fuel, read_image (fuel + 5) (some (ascii "P6\n\n#x\n1 1\n255\nabc")) (fun _ => true)
      = some (read_result.image [⟨97, 98, 99⟩] 1 1))
    ∧ (∀ fuel, read_image (fuel + 5) (some (ascii "P6\n#c\n\n#x\n1 1\n255\nabc")) (fun _ => true)
      = some read_result.undefined) :=
  ⟨fun _ => rfl, fun _ => rfl⟩
/-! ## The output names that `main` assigns -/

theorem strstr_isSome_iff (needle l : List Char) :
    (strstr needle l).isSome = true ↔ needle <:+: l := by
  induction l with
  | nil =>
    unfold strstr
    by_cases h : needle.isPrefixOf [] = true
    · rw [if_pos h]
      simp only [Option.isSome_some, true_iff]
      exact (List.isPrefixOf_iff_prefix.1 h).isInfix
    · rw [if_neg h]
      simp only [Option.isSome_none, Bool.false_eq_true, false_iff]
      intro hi
      apply h
      rw [List.isPrefixOf_iff_prefix]
      rw [List.infix_nil] at hi
      rw [hi]
  | cons c rest ih =>
    unfold strstr
    rw [List.infix_cons_iff]
    by_cases h : needle.isPrefixOf (c :: rest) = true
    · rw [if_pos h]
      simp only [Option.isSome_some, true_iff]
      exact Or.inl (List.isPrefixOf_iff_prefix.1 h)
    · rw [if_neg h, ih]
      constructor
      · exact Or.inr
      · rintro (hp | hi)
        · exact absurd (List.isPrefixOf_iff_prefix.2 hp) h
        · exact hi

theorem passes_extension_check_iff (arg : String) :
    passes_extension_check arg = true ↔ ".ppm".toList <:+: arg.toList := by
  unfold passes_extension_check
  exact strstr_isSome_iff _ _

theorem toDigits_length_le_iff (n k : Nat) (hk : 0 < k) :
    (Nat.toDigits 10 n).length ≤ k ↔ n < 10 ^ k := by
  by_cases h0 : n = 0
  · subst h0
    have : Nat.toDigits 10 0 = ['0'] := rfl
    rw [this]
    simp only [List.length_singleton]
    constructor
    · intro _; positivity
    · intro _; omega
  · rw [toDigits_eq_digits n (by omega), List.length_map, List.length_reverse]
    have h1 : n < 10 ^ (Nat.digits 10 n).length := Nat.lt_base_pow_length_digits (by decide)
    have h2 : 10 ^ (Nat.digits 10 n).length ≤ 10 * n :=
      Nat.base_pow_length_digits_le 10 n (by decide) h0
    constructor
    · intro hle
      exact lt_of_lt_of_le h1 (Nat.pow_le_pow_right (by decide) hle)
    · intro hlt
      have h3 : 10 ^ (Nat.digits 10 n).length < 10 ^ (k + 1) := by
        rw [pow_succ]
        omega
      have h4 := (Nat.pow_lt_pow_iff_right (by decide : 1 < 10)).1 h3
      omega

theorem sprintf_laplacian_length (n : Nat) :
    (sprintf_laplacian (n : Int)).length = 13 + (Nat.toDigits 10 n).length := by
  unfold sprintf_laplacian sprintf_d
  rw [if_neg (by omega), Int.toNat_ofNat]
  simp only [List.length_append]
  have h1 : "laplacian".toList.length = 9 := by decide
  have h2 : ".ppm".toList.length = 4 := by decide
  omega

theorem int_add_count (k : Nat) (hk : k ≤ 999999) : int_add (k : Int) 1 = ((k + 1 : Nat) : Int) := by
  unfold int_add to_int
  push_cast
  omega

theorem sprintf_laplacian_fits_iff (k : Nat) (hk : k ≤ 999999) :
    (sprintf_laplacian (int_add (k : Int) 1)).length + 1 > 20 ↔ 999999 < k + 1 := by
  rw [int_add_count k hk, sprintf_laplacian_length]
  have h := toDigits_length_le_iff (k + 1) 6 (by decide)
  have e : (10 : Nat) ^ 6 = 1000000 := by norm_num
  rw [e] at h
  omega

theorem sprintf_laplacian_name (n : Nat) :
    String.mk (sprintf_laplacian (n : Int)) = laplacian_name n := by
  unfold sprintf_laplacian sprintf_d laplacian_name
  rw [if_neg (by omega), Int.toNat_ofNat]
  apply String.ext
  simp [toString, Nat.repr, String.data_append, List.asString]

theorem numbered_from_inputs (first : Nat) (inputs : List String) :
    (numbered_from first inputs).map file_name_args.input_file_name = inputs := by
  induction inputs generalizing first with
  | nil => rfl
  | cons x xs ih => simp only [numbered_from, List.map_cons, ih]

theorem numbered_from_outputs (first : Nat) (inputs : List String) :
    (numbered_from first inputs).map file_name_args.output_file_name
      = (List.range' first inputs.length).map laplacian_name := by
  induction inputs generalizing first with
  | nil => rfl
  | cons x xs ih => simp only [numbered_from, List.map_cons, ih, List.length_cons, List.range'_succ]

theorem create_image_threads_returns (args : List String) (k : Nat) (io_args : List file_name_args)
    (h : k + (accepted_inputs args).length ≤ 999999) :
    create_image_threads args (k : Int) io_args
      = outcome.returned (io_args ++ numbered_from (k + 1) (accepted_inputs args)) := by
  induction args generalizing k io_args with
  | nil => simp [create_image_threads, accepted_inputs, numbered_from]
  | cons arg rest ih =>
    unfold create_image_threads
    by_cases hp : passes_extension_check arg = true
    · have ha : accepted_inputs (arg :: rest) = arg :: accepted_inputs rest := by
        unfold accepted_inputs
        rw [List.filter_cons_of_pos hp]
      rw [ha] at h ⊢
      simp only [List.length_cons] at h
      rw [if_pos hp, if_neg (by rw [sprintf_laplacian_fits_iff k (by omega)]; omega),
        int_add_count k (by omega), ih (k + 1) _ (by omega), sprintf_laplacian_name]
      simp only [numbered_from, List.append_assoc, List.singleton_append]
    · have ha : accepted_inputs (arg :: rest) = accepted_inputs rest := by
        unfold accepted_inputs
        rw [List.filter_cons_of_neg hp]
      rw [ha] at h ⊢
      rw [if_neg hp, ih k _ h]

/-- C14: for every argument list that the program is started with (at most
999999 of its arguments pass the extension check: every name up to
`laplacian999999.ppm` fits the 20 bytes of `output_file_name`), `main` fills in
one element of `io_args` for each accepted argument and none for a rejected
one, in argument order, and the i-th of them, counting from 1, has the output
name `laplacian<i>.ppm`: the names are `laplacian1.ppm`, `laplacian2.ppm`, ...
with no number skipped or used twice. -/
theorem output_names_are_consecutive (args : List String)
    (h : (accepted_inputs args).length ≤ 999999) :
    ∃ io_args : List file_name_args,
      create_image_threads args 0 [] = outcome.returned io_args
      ∧ io_args.map file_name_args.input_file_name = accepted_inputs args
      ∧ io_args.map file_name_args.output_file_name
          = (List.range' 1 (accepted_inputs args).length).map laplacian_name
      ∧ (∀ arg, passes_extension_check arg = true ↔ ".ppm".toList <:+: arg.toList) := by
  refine ⟨numbered_from 1 (accepted_inputs args), ?_, ?_, ?_, passes_extension_check_iff⟩
  · have := create_image_threads_returns args 0 [] (by omega)
    simpa using this
  · exact numbered_from_inputs 1 _
  · exact numbered_from_outputs 1 _

theorem output_names_are_consecutive_witness :
    (accepted_inputs ["a.ppm", "notes.txt", "b.ppm", "ppm", "c.ppm.bak"]).length ≤ 999999
    ∧ ∃ io_args : List file_name_args,
      create_image_threads ["a.ppm", "notes.txt", "b.ppm", "ppm", "c.ppm.bak"] 0 []
        = outcome.returned io_args
      ∧ io_args.map file_name_args.input_file_name
          = accepted_inputs ["a.ppm", "notes.txt", "b.ppm", "ppm", "c.ppm.bak"]
      ∧ io_args.map file_name_args.output_file_name
          = (List.range' 1
              (accepted_inputs ["a.ppm", "notes.txt", "b.ppm", "ppm", "c.ppm.bak"]).length).map
              laplacian_name
      ∧ (∀ arg, passes_extension_check arg = true ↔ ".ppm".toList <:+: arg.toList) :=
  ⟨by decide,
    output_names_are_consecutive ["a.ppm", "notes.txt", "b.ppm", "ppm", "c.ppm.bak"] (by decide)⟩

end EdgeDetector
